import Mathlib

/-!
# GameSetting.cpp : a shallow embedding of `UGameSetting`

The objects of the engine are identified by natural numbers: a setting is its
index in `World.settings`, a local player (the session) is a number and a null
pointer is `none`.  Every call that the source makes on a collaborator (a hook,
an edit condition, a delegate broadcast) is recorded in `World.trace`, so that
"is called", "is called once" and "is not called" are statements about the
trace.  The functions that can re-enter each other through delegates take a
fuel argument that bounds the depth of the call stack.
-/

namespace GameSettings

set_option linter.unusedVariables false

/-! ## Data model -/

/-- The reason tag of a change notification.  Only `DependencyChanged` is named in
the source file; the other enumerators of the header are `other n`. -/
inductive EGameSettingChangeReason where
  | DependencyChanged
  | other (tag : Nat)
  deriving DecidableEq, Repr

/-- A call an outside listener may make on a setting while it is being notified. -/
inductive Call where
  | NotifySettingChanged (target : Nat) (Reason : EGameSettingChangeReason)
  | RefreshEditableState (target : Nat) (bNotifyEditConditionsChanged : Bool)
  deriving DecidableEq, Repr

/-- An entry of a multicast delegate of a setting.  `editDependency owner` is the
binding made by `AddEditDependency` on behalf of `owner` (its
`HandleEditDependencyChanged` overload for the channel); `external tag body` is a
listener outside this file, which performs the calls of `body` in order. -/
inductive Listener where
  | editDependency (owner : Nat)
  | external (tag : Nat) (body : List Call)
  deriving DecidableEq, Repr

/-- What the program does that is visible outside `UGameSetting`. -/
inductive Event where
  | ensureFailed (setting : Nat) (msg : String)
  | ConditionInitialize (cond : Nat) (player : Option Nat)
  | ConditionSettingChanged (cond : Nat) (player : Option Nat) (setting : Nat)
      (Reason : EGameSettingChangeReason)
  | Startup (setting : Nat)
  | StartupComplete (setting : Nat)
  | OnInitialized (setting : Nat)
  | ComputeEditableState (setting : Nat)
  | OnSettingChanged (setting : Nat) (Reason : EGameSettingChangeReason)
  | OnEditConditionsChanged (setting : Nat)
  | OnDependencyChanged (setting : Nat)
  | BroadcastSettingChanged (setting : Nat) (Reason : EGameSettingChangeReason)
  | BroadcastEditConditionChanged (setting : Nat)
  | Invoke (source : Nat) (listener : Listener) (Reason : Option EGameSettingChangeReason)
  deriving DecidableEq, Repr

/-- An edit condition: its identity and its `GatherEditState`, a `const` method
that rewrites the state it is handed.  The editable state `σ` is declared in a
header outside this file and is a parameter. -/
structure FGameSettingEditCondition (σ : Type) where
  Id : Nat
  GatherEditState : Option Nat → σ → σ

/-- The members of `UGameSetting` that the source file reads or writes, and
`OnGatherEditState`, the virtual method that holds the node-local rule of the
class of the setting: the base class leaves the state as it is (`fun st => st`). -/
structure UGameSetting (σ : Type) where
  DevName : Option String
  DisplayName : String
  LocalPlayer : Option Nat
  bReady : Bool
  EditableStateCache : σ
  EditConditions : List (FGameSettingEditCondition σ)
  OnGatherEditState : σ → σ
  ChildSettings : List Nat
  bOnSettingChangedEventGuard : Bool
  bOnEditConditionsChangedEventGuard : Bool
  OnSettingChangedEvent : List Listener
  OnSettingEditConditionChangedEvent : List Listener
  DescriptionRichText : List Char
  AutoGenerated_DescriptionPlainText : List Char
  bRefreshPlainSearchableText : Bool

/-- The heap of settings together with the bindings held by edit conditions, the
trace, and the current and the greatest nesting depth of delegate broadcasts. -/
structure World (σ : Type) where
  settings : List (UGameSetting σ)
  OnEditConditionChangedEvent : List (Nat × Nat)
  trace : List Event
  depth : Nat
  maxDepth : Nat

variable {σ : Type}

/-- The setting behind a pointer, if the pointer designates one. -/
def World.get? (w : World σ) (i : Nat) : Option (UGameSetting σ) := w.settings[i]?

/-- Overwrite the members of setting `i`. -/
def World.modify (w : World σ) (i : Nat) (f : UGameSetting σ → UGameSetting σ) : World σ :=
  { w with settings := w.settings.modify f i }

/-- Write the member `bOnSettingChangedEventGuard` of setting `i`. -/
def World.setChangedGuard (w : World σ) (i : Nat) (b : Bool) : World σ :=
  w.modify i fun t => { t with bOnSettingChangedEventGuard := b }

/-- Write the member `bOnEditConditionsChangedEventGuard` of setting `i`. -/
def World.setEditGuard (w : World σ) (i : Nat) (b : Bool) : World σ :=
  w.modify i fun t => { t with bOnEditConditionsChangedEventGuard := b }

/-- Write the member `EditableStateCache` of setting `i`. -/
def World.setCache (w : World σ) (i : Nat) (v : σ) : World σ :=
  w.modify i fun t => { t with EditableStateCache := v }

/-- Append events to the trace. -/
def World.log (w : World σ) (es : List Event) : World σ :=
  { w with trace := w.trace ++ es }

/-- A delegate starts invoking its listeners. -/
def World.enterBroadcast (w : World σ) : World σ :=
  { w with depth := w.depth + 1, maxDepth := max w.maxDepth (w.depth + 1) }

/-- A delegate has invoked all its listeners. -/
def World.leaveBroadcast (w : World σ) : World σ :=
  { w with depth := w.depth - 1 }

/-- Run `f` on every element in order, stopping when a step does not return. -/
def forEach {α β : Type} (f : β → α → Option β) : List α → β → Option β
  | [], w => some w
  | a :: as, w =>
    match f w a with
    | none => none
    | some w1 => forEach f as w1

/-! ## Edit state -/

/-- The loop of `ComputeEditableState` over the edit conditions. -/
def gatherEditConditions (LocalPlayer : Option Nat) :
    σ → List (FGameSettingEditCondition σ) → σ
  | EditState, [] => EditState
  | EditState, EditCondition :: rest =>
    gatherEditConditions LocalPlayer (EditCondition.GatherEditState LocalPlayer EditState) rest

/-- The value returned by `UGameSetting::ComputeEditableState`. -/
def UGameSetting.ComputeEditableState [Inhabited σ] (s : UGameSetting σ) : σ :=
  let EditState : σ := default
  let EditState := s.OnGatherEditState EditState
  gatherEditConditions s.LocalPlayer EditState s.EditConditions

/-- `UGameSetting::ComputeEditableState` as a call: the value and the world after it. -/
def ComputeEditableState [Inhabited σ] (w : World σ) (self : Nat) : σ × World σ :=
  match w.get? self with
  | none => (default, w)
  | some s => (s.ComputeEditableState, w.log [Event.ComputeEditableState self])

/-- `UGameSetting::AddEditCondition`. -/
def AddEditCondition (w : World σ) (self : Nat) (InEditCondition : FGameSettingEditCondition σ) :
    World σ :=
  let w1 := w.modify self fun s => { s with EditConditions := s.EditConditions ++ [InEditCondition] }
  { w1 with OnEditConditionChangedEvent := w1.OnEditConditionChangedEvent ++ [(InEditCondition.Id, self)] }

/-- `UGameSetting::AddEditDependency`. -/
def AddEditDependency (w : World σ) (self : Nat) (DependencySetting : Nat) : World σ :=
  match w.get? DependencySetting with
  | none => w.log [Event.ensureFailed self "DependencySetting"]
  | some _ =>
    w.modify DependencySetting fun d =>
      { d with
        OnSettingChangedEvent := d.OnSettingChangedEvent ++ [Listener.editDependency self]
        OnSettingEditConditionChangedEvent :=
          d.OnSettingEditConditionChangedEvent ++ [Listener.editDependency self] }

/-! ## Notification and refresh -/

mutual

/-- `UGameSetting::NotifySettingChanged`. -/
def NotifySettingChanged [Inhabited σ] :
    Nat → World σ → Nat → EGameSettingChangeReason → Option (World σ)
  | 0, _, _, _ => none
  | fuel + 1, w, self, Reason =>
    match w.get? self with
    | none => some w
    | some s =>
      let w1 := w.log (Event.OnSettingChanged self Reason ::
        s.EditConditions.map fun c => Event.ConditionSettingChanged c.Id s.LocalPlayer self Reason)
      match s.bOnSettingChangedEventGuard with
      | true => some w1
      | false =>
        let w2 := w1.setChangedGuard self true
        let w3 := (w2.log [Event.BroadcastSettingChanged self Reason]).enterBroadcast
        match forEach (fun v l => InvokeListener fuel v l self (some Reason))
            s.OnSettingChangedEvent w3 with
        | none => none
        | some w4 =>
          -- `TGuardValue` puts back the value it found, which is `false` on this branch
          some (w4.leaveBroadcast.setChangedGuard self false)
termination_by structural fuel => fuel

/-- `UGameSetting::RefreshEditableState`. -/
def RefreshEditableState [Inhabited σ] : Nat → World σ → Nat → Bool → Option (World σ)
  | 0, _, _, _ => none
  | fuel + 1, w, self, bNotifyEditConditionsChanged =>
    match w.get? self with
    | none => some w
    | some s =>
      match s.LocalPlayer with
      | none => some w
      | some _ =>
        match s.bOnEditConditionsChangedEventGuard with
        | true => some w
        | false =>
          let w1 := w.setEditGuard self true
          let r := ComputeEditableState w1 self
          let w2 := r.2.setCache self r.1
          match bNotifyEditConditionsChanged with
          | false => some (w2.setEditGuard self false)
          | true =>
            match NotifyEditConditionsChanged fuel w2 self with
            | none => none
            | some w3 => some (w3.setEditGuard self false)
termination_by structural fuel => fuel

/-- `UGameSetting::NotifyEditConditionsChanged`. -/
def NotifyEditConditionsChanged [Inhabited σ] : Nat → World σ → Nat → Option (World σ)
  | 0, _, _ => none
  | fuel + 1, w, self =>
    match w.get? self with
    | none => some w
    | some s =>
      let w1 := w.log [Event.OnEditConditionsChanged self]
      let w2 := (w1.log [Event.BroadcastEditConditionChanged self]).enterBroadcast
      match forEach (fun v l => InvokeListener fuel v l self none)
          s.OnSettingEditConditionChangedEvent w2 with
      | none => none
      | some w3 => some w3.leaveBroadcast
termination_by structural fuel => fuel

/-- The two overloads of `UGameSetting::HandleEditDependencyChanged`: `Reason` is
`none` for the one bound to the edit-condition channel.  A binding whose owner is
gone does nothing. -/
def HandleEditDependencyChanged [Inhabited σ] :
    Nat → World σ → Nat → Nat → Option EGameSettingChangeReason → Option (World σ)
  | 0, _, _, _, _ => none
  | fuel + 1, w, self, DependencySetting, Reason =>
    match w.get? self with
    | none => some w
    | some _ =>
      let w1 := w.log [Event.OnDependencyChanged self]
      match RefreshEditableState fuel w1 self true with
      | none => none
      | some w2 =>
        match Reason with
        | none => some w2
        | some r =>
          if r ≠ EGameSettingChangeReason.DependencyChanged then
            NotifySettingChanged fuel w2 self EGameSettingChangeReason.DependencyChanged
          else some w2
termination_by structural fuel => fuel

/-- A delegate invokes one of its listeners. -/
def InvokeListener [Inhabited σ] :
    Nat → World σ → Listener → Nat → Option EGameSettingChangeReason → Option (World σ)
  | 0, _, _, _, _ => none
  | fuel + 1, w, Listener.editDependency owner, source, Reason =>
    HandleEditDependencyChanged fuel
      (w.log [Event.Invoke source (Listener.editDependency owner) Reason]) owner source Reason
  | fuel + 1, w, Listener.external tag body, source, Reason =>
    forEach
      (fun v c =>
        match c with
        | Call.NotifySettingChanged target r => NotifySettingChanged fuel v target r
        | Call.RefreshEditableState target b => RefreshEditableState fuel v target b)
      body (w.log [Event.Invoke source (Listener.external tag body) Reason])
termination_by structural fuel => fuel

end

/-! ## Initialization -/

/-- `UGameSetting::OnInitialized`. -/
def OnInitialized [Inhabited σ] (w : World σ) (self : Nat) : World σ :=
  match w.get? self with
  | none => w
  | some s =>
    let w1 := w.log [Event.OnInitialized self]
    let w2 := if s.bReady then w1 else
      w1.log [Event.ensureFailed self "OnInitialized called directly instead of via StartupComplete."]
    let r := ComputeEditableState w2 self
    r.2.setCache self r.1

/-- `UGameSetting::StartupComplete`. -/
def StartupComplete [Inhabited σ] (w : World σ) (self : Nat) : World σ :=
  match w.get? self with
  | none => w
  | some s =>
    let w1 := w.log [Event.StartupComplete self]
    let w2 := if s.bReady then w1.log [Event.ensureFailed self "StartupComplete called twice."] else w1
    if !s.bReady then
      OnInitialized (w2.modify self fun t => { t with bReady := true }) self
    else w2

/-- `UGameSetting::Startup`, as the base class has it. -/
def Startup [Inhabited σ] (w : World σ) (self : Nat) : World σ :=
  StartupComplete (w.log [Event.Startup self]) self

/-- The member `LocalPlayer` of a setting, null when there is no such setting. -/
def World.LocalPlayer (w : World σ) (self : Nat) : Option Nat :=
  match w.get? self with
  | none => none
  | some s => s.LocalPlayer

/-- The two `ensureAlwaysMsgf` of `Initialize`: what they report for setting `self`. -/
def ensureIdentity (self : Nat) (s : UGameSetting σ) : List Event :=
  (if s.DevName = none then
      [Event.ensureFailed self "You must provide a DevName for the setting."] else [])
    ++ (if s.DisplayName = "" then
      [Event.ensureFailed self "You must provide a DisplayName for settings."] else [])

/-- `UGameSetting::Initialize`, in a build that is not a shipping build. -/
def Initialize [Inhabited σ] : Nat → World σ → Nat → Option Nat → Option (World σ)
  | 0, _, _, _ => none
  | fuel + 1, w, self, InLocalPlayer =>
    match w.get? self with
    | none => some w
    | some s =>
      if s.LocalPlayer = InLocalPlayer then some w
      else
        let w1 := w.modify self fun t => { t with LocalPlayer := InLocalPlayer }
        let w2 := w1.log (ensureIdentity self s)
        let w3 := w2.log (s.EditConditions.map fun c => Event.ConditionInitialize c.Id InLocalPlayer)
        match forEach (fun v Setting => Initialize fuel v Setting (v.LocalPlayer self))
            s.ChildSettings w3 with
        | none => none
        | some w4 => some (Startup w4 self)

/-! ## Plain text of the description -/

/-- A range of the processed markup: `[BeginIndex, EndIndex)`. -/
structure FTextRange where
  BeginIndex : Nat
  EndIndex : Nat
  deriving DecidableEq, Repr

/-- `FTextRange::Len`. -/
def FTextRange.Len (r : FTextRange) : Nat := r.EndIndex - r.BeginIndex

/-- `FTextRange::IsEmpty`. -/
def FTextRange.IsEmpty (r : FTextRange) : Bool := decide (r.EndIndex - r.BeginIndex ≤ 0)

/-- A run of a parsed line: the tag name (empty for literal text) and its ranges. -/
structure FTextRunParseResults where
  Name : List Char
  OriginalRange : FTextRange
  ContentRange : FTextRange
  deriving DecidableEq, Repr

/-- A parsed line: its runs in document order. -/
structure FTextLineParseResults where
  Range : FTextRange
  Runs : List FTextRunParseResults
  deriving DecidableEq, Repr

/-- `FString::Mid(Start, Count)`: at most `Count` characters from index `Start`. -/
def Mid (s : List Char) (Start Count : Nat) : List Char := (s.drop Start).take Count

/-- The inner loop of `RefreshPlainText`: the runs of one line. -/
def appendRuns (ActualOutput : List Char) : List Char → List FTextRunParseResults → List Char
  | acc, [] => acc
  | acc, Run :: rest =>
    if Run.Name.isEmpty then
      appendRuns ActualOutput
        (acc ++ Mid ActualOutput Run.OriginalRange.BeginIndex Run.OriginalRange.Len) rest
    else if !Run.ContentRange.IsEmpty then
      appendRuns ActualOutput
        (acc ++ Mid ActualOutput Run.ContentRange.BeginIndex Run.ContentRange.Len) rest
    else appendRuns ActualOutput acc rest

/-- The outer loop of `RefreshPlainText`: the lines of the parse result. -/
def appendLines (ActualOutput : List Char) : List Char → List FTextLineParseResults → List Char
  | acc, [] => acc
  | acc, Line :: rest => appendLines ActualOutput (appendRuns ActualOutput acc Line.Runs) rest

/-- `UGameSetting::RefreshPlainText`.  `Process` is the markup processor of the engine:
it returns the parse result and the processed output string. -/
def RefreshPlainText (Process : List Char → List FTextLineParseResults × List Char)
    (s : UGameSetting σ) : UGameSetting σ :=
  if s.bRefreshPlainSearchableText then
    let r := Process s.DescriptionRichText
    let ActualResultsArray := r.1
    let ActualOutput := r.2
    { s with
      AutoGenerated_DescriptionPlainText := appendLines ActualOutput [] ActualResultsArray
      bRefreshPlainSearchableText := false }
  else s

/-- `UGameSetting::GetDescriptionPlainText`: the text and the setting after the call. -/
def GetDescriptionPlainText (Process : List Char → List FTextLineParseResults × List Char)
    (s : UGameSetting σ) : List Char × UGameSetting σ :=
  let s1 := RefreshPlainText Process s
  (s1.AutoGenerated_DescriptionPlainText, s1)

/-- The text a run contributes, in the words of the specification. -/
def runText (ActualOutput : List Char) (Run : FTextRunParseResults) : List Char :=
  if Run.Name = [] then
    Mid ActualOutput Run.OriginalRange.BeginIndex Run.OriginalRange.Len
  else if Run.ContentRange.EndIndex ≤ Run.ContentRange.BeginIndex then []
  else Mid ActualOutput Run.ContentRange.BeginIndex Run.ContentRange.Len

/-- The plain text in the words of the specification: the concatenation, over the
lines and then the runs in list order, of what each run contributes. -/
def plainTextSpec (ActualResultsArray : List FTextLineParseResults) (ActualOutput : List Char) :
    List Char :=
  (ActualResultsArray.map fun Line => (Line.Runs.map (runText ActualOutput)).flatten).flatten

/-! ## The string cache keyed by the culture -/

/-- `UGameSetting::FStringCultureCache`.  The producer `StringGetter` is any
procedure: `StringGetter k` is what its invocation number `k` returns, and `calls`
counts its invocations. -/
structure FStringCultureCache where
  Culture : Nat
  StringGetter : Nat → List Char
  StringCache : List Char
  calls : Nat

/-- The constructor of `FStringCultureCache`; `current` is the active culture. -/
def FStringCultureCache.new (current : Nat) (InStringGetter : Nat → List Char) :
    FStringCultureCache :=
  { Culture := current, StringGetter := InStringGetter, StringCache := InStringGetter 0, calls := 1 }

/-- `FStringCultureCache::Invalidate`. -/
def FStringCultureCache.Invalidate (current : Nat) (c : FStringCultureCache) : FStringCultureCache :=
  { c with StringCache := c.StringGetter c.calls, calls := c.calls + 1, Culture := current }

/-- `FStringCultureCache::Get`: the returned string and the cache after the call. -/
def FStringCultureCache.Get (current : Nat) (c : FStringCultureCache) :
    List Char × FStringCultureCache :=
  if c.Culture = current then (c.StringCache, c)
  else
    let c1 := { c with StringCache := c.StringGetter c.calls, calls := c.calls + 1 }
    let c2 := { c1 with Culture := current }
    (c2.StringCache, c2)

/-- A run of `Get` calls, one for each entry of `locales` (the active culture at
that call): the strings returned, in order, and the cache afterwards. -/
def FStringCultureCache.GetAll : List Nat → FStringCultureCache → List (List Char) × FStringCultureCache
  | [], c => ([], c)
  | current :: rest, c =>
    let r := c.Get current
    let rs := FStringCultureCache.GetAll rest r.2
    (r.1 :: rs.1, rs.2)

/-- The number of `Get` calls of a run that find an active culture different from
the cached one, `cached` being the culture cached before the run. -/
def cultureChanges : Nat → List Nat → Nat
  | _, [] => 0
  | cached, current :: rest =>
    (if cached = current then 0 else 1) + cultureChanges current rest

/-- The parse of `Hello <b>World</b>!`: a literal, the tag `b`, a literal. -/
def helloWorldRuns : List FTextLineParseResults :=
  [{ Range := { BeginIndex := 0, EndIndex := 19 }
     Runs :=
      [{ Name := [], OriginalRange := { BeginIndex := 0, EndIndex := 6 },
         ContentRange := { BeginIndex := 0, EndIndex := 0 } },
       { Name := ['b'], OriginalRange := { BeginIndex := 6, EndIndex := 18 },
         ContentRange := { BeginIndex := 9, EndIndex := 14 } },
       { Name := [], OriginalRange := { BeginIndex := 18, EndIndex := 19 },
         ContentRange := { BeginIndex := 0, EndIndex := 0 } }] }]

/-! ## What a notification preserves -/

/-- A setting with its cache reset: the members a refresh cannot change. -/
def UGameSetting.forgetCache [Inhabited σ] (s : UGameSetting σ) : UGameSetting σ :=
  { s with EditableStateCache := default }

/-- The settings of a world with their caches reset. -/
def World.shape [Inhabited σ] (w : World σ) : List (UGameSetting σ) :=
  w.settings.map UGameSetting.forgetCache

/-- The number of guard flags of a setting that are not held. -/
def guardWeight (s : UGameSetting σ) : Nat :=
  (if s.bOnSettingChangedEventGuard then 0 else 1)
    + (if s.bOnEditConditionsChangedEventGuard then 0 else 1)

/-- The number of guard flags that are not held. -/
def guardsFree (l : List (UGameSetting σ)) : Nat := (l.map guardWeight).sum

/-- The events of the changed channel of setting `y`: its broadcasts and the
invocations of its listeners. -/
def Event.onChangedChannel (y : Nat) : Event → Bool
  | Event.BroadcastSettingChanged s _ => decide (s = y)
  | Event.Invoke s _ (some _) => decide (s = y)
  | _ => false

/-- The relation between the world before and after a call that returns: only
caches differ, the broadcast depth is back where it was, the greatest depth is at
most `bound` unless it was greater before, and `delta` is what the call recorded. -/
structure Pres [Inhabited σ] (w w' : World σ) (delta : List Event) (bound : Nat) : Prop where
  shape : w'.shape = w.shape
  depth : w'.depth = w.depth
  maxDepth : w'.maxDepth ≤ max w.maxDepth bound
  trace : w'.trace = w.trace ++ delta

/-- On the changed channel of every setting whose changed guard is held in `w`,
`delta` shows exactly the events of `base`. -/
def Quiet (w : World σ) (delta base : List Event) : Prop :=
  ∀ y s, w.get? y = some s → s.bOnSettingChangedEventGuard = true →
    delta.filter (Event.onChangedChannel y) = base.filter (Event.onChangedChannel y)

/-- With fuel `4 * guardsFree + 1`, `NotifySettingChanged` returns. -/
def NotifyOK (σ : Type) [Inhabited σ] (fuel : Nat) : Prop :=
  ∀ (w : World σ) (x : Nat) (r : EGameSettingChangeReason),
    4 * guardsFree w.settings + 1 ≤ fuel →
    ∃ w' d, NotifySettingChanged fuel w x r = some w'
      ∧ Pres w w' d (w.depth + guardsFree w.settings) ∧ Quiet w d []

/-- With fuel `4 * guardsFree + 1`, `RefreshEditableState` returns. -/
def RefreshOK (σ : Type) [Inhabited σ] (fuel : Nat) : Prop :=
  ∀ (w : World σ) (x : Nat) (b : Bool),
    4 * guardsFree w.settings + 1 ≤ fuel →
    ∃ w' d, RefreshEditableState fuel w x b = some w'
      ∧ Pres w w' d (w.depth + guardsFree w.settings) ∧ Quiet w d []

/-- With fuel `4 * guardsFree + 4`, `NotifyEditConditionsChanged` returns. -/
def NotifyEditOK (σ : Type) [Inhabited σ] (fuel : Nat) : Prop :=
  ∀ (w : World σ) (x : Nat),
    4 * guardsFree w.settings + 4 ≤ fuel →
    ∃ w' d, NotifyEditConditionsChanged fuel w x = some w'
      ∧ Pres w w' d (w.depth + guardsFree w.settings + 1) ∧ Quiet w d []

/-- With fuel `4 * guardsFree + 2`, `HandleEditDependencyChanged` returns. -/
def HandleOK (σ : Type) [Inhabited σ] (fuel : Nat) : Prop :=
  ∀ (w : World σ) (x dep : Nat) (R : Option EGameSettingChangeReason),
    4 * guardsFree w.settings + 2 ≤ fuel →
    ∃ w' d, HandleEditDependencyChanged fuel w x dep R = some w'
      ∧ Pres w w' d (w.depth + guardsFree w.settings) ∧ Quiet w d []

/-- With fuel `4 * guardsFree + 3`, a listener returns, and the first event it
records is its own invocation. -/
def InvokeOK (σ : Type) [Inhabited σ] (fuel : Nat) : Prop :=
  ∀ (w : World σ) (l : Listener) (src : Nat) (R : Option EGameSettingChangeReason),
    4 * guardsFree w.settings + 3 ≤ fuel →
    ∃ w' d, InvokeListener fuel w l src R = some w'
      ∧ Pres w w' (Event.Invoke src l R :: d) (w.depth + guardsFree w.settings) ∧ Quiet w d []

/-! ## What an initialization preserves -/

/-- The number of settings whose `LocalPlayer` is not `S`: they are the settings a
call `Initialize(S)` can still enter. -/
def pending (S : Option Nat) (l : List (UGameSetting σ)) : Nat :=
  (l.map fun s => if s.LocalPlayer = S then 0 else 1).sum

/-- What a setting `t` may have become, as `t1`, once calls of `Initialize` have
recorded `delta`: a ready setting stays ready and keeps its cache, and
`OnInitialized` has run on `y` exactly when its `bReady` went from false to true. -/
structure ReadyStep (y : Nat) (t t1 : UGameSetting σ) (delta : List Event) : Prop where
  ready : t.bReady = true → t1.bReady = true ∧ t1.EditableStateCache = t.EditableStateCache
  once : delta.count (Event.OnInitialized y) + (if t.bReady then 1 else 0)
    = (if t1.bReady then 1 else 0)

/-- The relation between the worlds before and after calls of `Initialize` that
recorded `delta`, whatever the sessions. -/
structure ReadyRel (w w1 : World σ) (delta : List Event) : Prop where
  trace : w1.trace = w.trace ++ delta
  length : w1.settings.length = w.settings.length
  frame : ∀ y t, w.get? y = some t → ∃ t1, w1.get? y = some t1 ∧ ReadyStep y t t1 delta

/-- The relation between the worlds before and after a call `Initialize(S)` that
recorded `delta`: a setting that had `S` already is untouched and is not started,
and the others keep their `LocalPlayer` or get `S`. -/
structure InitRel (S : Option Nat) (w w1 : World σ) (delta : List Event) : Prop where
  trace : w1.trace = w.trace ++ delta
  length : w1.settings.length = w.settings.length
  frame : ∀ y t, w.get? y = some t → ∃ t1, w1.get? y = some t1
    ∧ (t.LocalPlayer = S → t1 = t ∧ delta.count (Event.Startup y) = 0
        ∧ delta.count (Event.StartupComplete y) = 0)
    ∧ (t1.LocalPlayer = t.LocalPlayer ∨ t1.LocalPlayer = S)
    ∧ ReadyStep y t t1 delta

/-- With more fuel than there are settings without the session `S`, `Initialize(S)`
returns. -/
def InitOK (σ : Type) [Inhabited σ] (fuel : Nat) : Prop :=
  ∀ (w : World σ) (x : Nat) (S : Option Nat), pending S w.settings < fuel →
    ∃ w1 d, Initialize fuel w x S = some w1 ∧ InitRel S w w1 d

/-- A sequence of `Initialize` calls, each on a setting with a session. -/
def InitializeAll [Inhabited σ] (fuel : Nat) :
    List (Nat × Option Nat) → World σ → Option (World σ) :=
  forEach fun v c => Initialize fuel v c.1 c.2

/-! ## Worlds wired by `AddEditDependency` only -/

/-- A listener is a binding made by `AddEditDependency`. -/
def Listener.isDependency : Listener → Bool
  | Listener.editDependency _ => true
  | Listener.external _ _ => false

/-- Every listener of every setting is a binding made by `AddEditDependency`, as a
check that can be evaluated. -/
def World.wired (w : World σ) : Bool :=
  w.settings.all fun s =>
    s.OnSettingChangedEvent.all Listener.isDependency
      && s.OnSettingEditConditionChangedEvent.all Listener.isDependency

/-- Every listener of every setting is a binding made by `AddEditDependency`: no
listener outside the settings is bound. -/
def Wired (w : World σ) : Prop :=
  ∀ i s, w.get? i = some s →
    (∀ l ∈ s.OnSettingChangedEvent, ∃ z, l = Listener.editDependency z)
    ∧ (∀ l ∈ s.OnSettingEditConditionChangedEvent, ∃ z, l = Listener.editDependency z)

/-- The events of the changed channels, of any setting. -/
def Event.isChanged : Event → Bool
  | Event.BroadcastSettingChanged _ _ => true
  | Event.Invoke _ _ (some _) => true
  | _ => false

/-- The relation between the worlds before and after a call that recorded `d`: only
caches differ, and a cache that differs holds the value of `ComputeEditableState`. -/
structure Settled [Inhabited σ] (w w1 : World σ) (d : List Event) : Prop where
  shape : w1.shape = w.shape
  trace : w1.trace = w.trace ++ d
  cache : ∀ z t t1, w.get? z = some t → w1.get? z = some t1 →
    t1.EditableStateCache = t.EditableStateCache
      ∨ t1.EditableStateCache = t.ComputeEditableState

/-- In a wired world `RefreshEditableState` records nothing on a changed channel. -/
def SettledRefresh (σ : Type) [Inhabited σ] (fuel : Nat) : Prop :=
  ∀ (w : World σ) (x : Nat) (b : Bool) (w1 : World σ), Wired w →
    RefreshEditableState fuel w x b = some w1 →
    ∃ d, Settled w w1 d ∧ d.filter Event.isChanged = []

/-- In a wired world `NotifyEditConditionsChanged` records nothing on a changed
channel. -/
def SettledEdit (σ : Type) [Inhabited σ] (fuel : Nat) : Prop :=
  ∀ (w : World σ) (x : Nat) (w1 : World σ), Wired w →
    NotifyEditConditionsChanged fuel w x = some w1 →
    ∃ d, Settled w w1 d ∧ d.filter Event.isChanged = []

/-- In a wired world `HandleEditDependencyChanged`, without a reason or with
`DependencyChanged`, records nothing on a changed channel. -/
def SettledHandle (σ : Type) [Inhabited σ] (fuel : Nat) : Prop :=
  ∀ (w : World σ) (x dep : Nat) (R : Option EGameSettingChangeReason) (w1 : World σ), Wired w →
    (R = none ∨ R = some EGameSettingChangeReason.DependencyChanged) →
    HandleEditDependencyChanged fuel w x dep R = some w1 →
    ∃ d, Settled w w1 d ∧ d.filter Event.isChanged = []

/-- In a wired world a dependency listener invoked without a reason or with
`DependencyChanged` records its invocation and then nothing on a changed channel. -/
def SettledInvoke (σ : Type) [Inhabited σ] (fuel : Nat) : Prop :=
  ∀ (w : World σ) (z src : Nat) (R : Option EGameSettingChangeReason) (w1 : World σ), Wired w →
    (R = none ∨ R = some EGameSettingChangeReason.DependencyChanged) →
    InvokeListener fuel w (Listener.editDependency z) src R = some w1 →
    ∃ d, Settled w w1 (Event.Invoke src (Listener.editDependency z) R :: d)
      ∧ d.filter Event.isChanged = []

/-! ## Concrete worlds -/

/-- A setting as it is constructed: no session, not ready, nothing attached. -/
def freshSetting : UGameSetting Nat :=
  { DevName := some "Quality", DisplayName := "Quality", LocalPlayer := none, bReady := false,
    EditableStateCache := 0, EditConditions := [], OnGatherEditState := fun st => st,
    ChildSettings := [],
    bOnSettingChangedEventGuard := false, bOnEditConditionsChangedEventGuard := false,
    OnSettingChangedEvent := [], OnSettingEditConditionChangedEvent := [],
    DescriptionRichText := [], AutoGenerated_DescriptionPlainText := [],
    bRefreshPlainSearchableText := true }

/-- A world of the given settings in which nothing has happened yet. -/
def worldOf (l : List (UGameSetting Nat)) : World Nat :=
  { settings := l, OnEditConditionChangedEvent := [], trace := [], depth := 0, maxDepth := 0 }

/-- An edit condition whose state is the number of the session, and 0 without one. -/
def sessionCondition : FGameSettingEditCondition Nat :=
  { Id := 0, GatherEditState := fun p _ => p.getD 0 }

/-- An edit condition that writes the state 7. -/
def sevenCondition : FGameSettingEditCondition Nat :=
  { Id := 1, GatherEditState := fun _ _ => 7 }

/-- A setting with a session, as `Initialize` leaves it. -/
def liveSetting : UGameSetting Nat :=
  { freshSetting with LocalPlayer := some 1, bReady := true }

/-- A setting with a session whose cache 0 is stale: its condition makes the state 7. -/
def depSetting : UGameSetting Nat :=
  { liveSetting with EditConditions := [sevenCondition] }

/-- Three settings, the second registered as depending on the first and the third
on the second; the middle setting has no session, a stale cache 0 and a condition
that would make its state 7. -/
def staleChainWorld : World Nat :=
  AddEditDependency
    (AddEditDependency
      (worldOf [liveSetting, { freshSetting with EditConditions := [sevenCondition] }, liveSetting])
      1 0) 2 1

/-- The chain 0 ← 1 ← 2 of settings with sessions, the middle one with a stale cache. -/
def chainWorld : World Nat :=
  AddEditDependency (AddEditDependency (worldOf [liveSetting, depSetting, liveSetting]) 1 0) 2 1

/-- The chain while the first setting is broadcasting on its changed channel. -/
def heldChainWorld : World Nat := chainWorld.setChangedGuard 0 true

/-- The chain while the middle setting is broadcasting on both its channels. -/
def busyChainWorld : World Nat := (chainWorld.setChangedGuard 1 true).setEditGuard 1 true

/-- The chain in which the third setting is registered on the first one as well. -/
def forkChainWorld : World Nat :=
  AddEditDependency
    (AddEditDependency
      (AddEditDependency (worldOf [liveSetting, depSetting, liveSetting]) 2 0) 1 0) 2 1

/-- The chain in which the first setting also has a listener outside the settings,
which notifies the middle setting with another reason. -/
def outsideChainWorld : World Nat :=
  AddEditDependency
    (AddEditDependency
      (worldOf [{ liveSetting with
          OnSettingChangedEvent :=
            [Listener.external 0 [Call.NotifySettingChanged 1 (EGameSettingChangeReason.other 5)]] },
        depSetting, liveSetting]) 1 0) 2 1

/-- Four settings with sessions, the fourth registered as depending on the first. -/
def fanWorld : World Nat :=
  AddEditDependency (worldOf [liveSetting, depSetting, liveSetting, liveSetting]) 3 0

/-- What `NotifySettingChanged` on setting 0 leaves in a world of three settings:
the number of calls of `ComputeEditableState` on setting 1, the cache of setting 1
with the value `ComputeEditableState` has for it, and the events on the changed
channels of settings 1 and 2. -/
def chainReport (w : World Nat) :
    Option (Nat × Option (Nat × Nat) × List Event × List Event) :=
  (NotifySettingChanged 25 w 0 (EGameSettingChangeReason.other 0)).map fun w1 =>
    (w1.trace.count (Event.ComputeEditableState 1),
      (w1.get? 1).map (fun t => (t.EditableStateCache, t.ComputeEditableState)),
      w1.trace.filter (Event.onChangedChannel 1), w1.trace.filter (Event.onChangedChannel 2))

/-- A setting whose node-local rule adds one, with a condition that doubles. -/
def ruleSetting : UGameSetting Nat :=
  { freshSetting with
    OnGatherEditState := fun st => st + 1
    EditConditions := [{ Id := 2, GatherEditState := fun _ st => 2 * st }] }

/-- One setting with a listener that, when notified, notifies the same setting again. -/
def echoWorld : World Nat :=
  worldOf [{ liveSetting with
    OnSettingChangedEvent :=
      [Listener.external 0 [Call.NotifySettingChanged 0 (EGameSettingChangeReason.other 2)]] }]

/-- Two settings, each depending on the other and on itself. -/
def cycleWorld : World Nat :=
  AddEditDependency (AddEditDependency (AddEditDependency (AddEditDependency
    (worldOf [liveSetting, liveSetting]) 0 1) 1 0) 0 0) 1 1

/-- A setting as it is constructed, with `sessionCondition` attached. -/
def sessionSetting : UGameSetting Nat :=
  { freshSetting with EditConditions := [sessionCondition] }

/-- A markup processor that answers with the parse of `Hello <b>World</b>!`. -/
def helloWorldProcess : List Char → List FTextLineParseResults × List Char :=
  fun _ => (helloWorldRuns, "Hello <b>World</b>!".toList)

/-- A producer whose invocation number `k` returns `k` times the letter `a`. -/
def countingGetter : Nat → List Char := fun k => List.replicate k 'a'

/-- The guards of `w1` are those of `w`, setting by setting. -/
def GuardsAsBefore (w w1 : World σ) : Prop :=
  ∀ i s, w.get? i = some s → ∃ s1, w1.get? i = some s1
    ∧ s1.bOnSettingChangedEventGuard = s.bOnSettingChangedEventGuard
    ∧ s1.bOnEditConditionsChangedEventGuard = s.bOnEditConditionsChangedEventGuard

/-- No guard of `w` is held. -/
def GuardsFree (w : World σ) : Prop :=
  ∀ i s, w.get? i = some s →
    s.bOnSettingChangedEventGuard = false ∧ s.bOnEditConditionsChangedEventGuard = false

/-! ## Access lemmas -/

@[simp] theorem get?_modify_self (w : World σ) (i : Nat) (f : UGameSetting σ → UGameSetting σ) :
    (w.modify i f).get? i = (w.get? i).map f := by
  simp [World.get?, World.modify]

@[simp] theorem get?_modify_other (w : World σ) {i j : Nat} (f : UGameSetting σ → UGameSetting σ)
    (h : i ≠ j) : (w.modify i f).get? j = w.get? j := by
  simp [World.get?, World.modify, List.getElem?_modify_ne _ _ h]

theorem get?_modify (w : World σ) (i j : Nat) (f : UGameSetting σ → UGameSetting σ) :
    (w.modify i f).get? j = if i = j then (w.get? j).map f else w.get? j := by
  by_cases h : i = j
  · subst h; simp
  · simp [h]

@[simp] theorem get?_log (w : World σ) (es : List Event) (i : Nat) : (w.log es).get? i = w.get? i := rfl

@[simp] theorem get?_enterBroadcast (w : World σ) (i : Nat) : w.enterBroadcast.get? i = w.get? i := rfl

@[simp] theorem get?_leaveBroadcast (w : World σ) (i : Nat) : w.leaveBroadcast.get? i = w.get? i := rfl

@[simp] theorem trace_modify (w : World σ) (i : Nat) (f : UGameSetting σ → UGameSetting σ) :
    (w.modify i f).trace = w.trace := rfl

@[simp] theorem trace_log (w : World σ) (es : List Event) : (w.log es).trace = w.trace ++ es := rfl

@[simp] theorem trace_enterBroadcast (w : World σ) : w.enterBroadcast.trace = w.trace := rfl

@[simp] theorem trace_leaveBroadcast (w : World σ) : w.leaveBroadcast.trace = w.trace := rfl

@[simp] theorem settings_log (w : World σ) (es : List Event) : (w.log es).settings = w.settings :=
  rfl

@[simp] theorem length_modify (w : World σ) (i : Nat) (f : UGameSetting σ → UGameSetting σ) :
    (w.modify i f).settings.length = w.settings.length := by
  simp [World.modify]

theorem filter_conditionEvents (y : Nat) (p : Option Nat) (x : Nat) (r : EGameSettingChangeReason)
    (cs : List (FGameSettingEditCondition σ)) :
    (cs.map fun c => Event.ConditionSettingChanged c.Id p x r).filter (Event.onChangedChannel y)
      = [] := by
  induction cs with
  | nil => rfl
  | cons c rest ih => simp [Event.onChangedChannel]

/-! ## The plain text, the culture cache, the edit state -/

theorem appendRuns_eq (out : List Char) (runs : List FTextRunParseResults) :
    ∀ acc, appendRuns out acc runs = acc ++ (runs.map (runText out)).flatten := by
  induction runs with
  | nil => intro acc; simp [appendRuns]
  | cons r rest ih =>
    intro acc
    rcases r with ⟨name, orig, content⟩
    cases name with
    | nil => simp [appendRuns, runText, ih]
    | cons a as =>
      by_cases hc : content.EndIndex ≤ content.BeginIndex
      · simp [appendRuns, runText, ih, FTextRange.IsEmpty, hc]
      · have hne : content.EndIndex - content.BeginIndex ≠ 0 := by omega
        simp [appendRuns, runText, ih, FTextRange.IsEmpty, hc, hne]

theorem appendLines_eq (out : List Char) (lines : List FTextLineParseResults) :
    ∀ acc, appendLines out acc lines = acc ++ plainTextSpec lines out := by
  induction lines with
  | nil => intro acc; simp [appendLines, plainTextSpec]
  | cons l rest ih =>
    intro acc
    simp only [appendLines, ih, appendRuns_eq]
    simp [plainTextSpec]

/-- C6: with the dirty flag set, `RefreshPlainText` makes the plain text the
concatenation, over the lines and then the runs in order, of the output at
`OriginalRange` for a run without a name and at `ContentRange` for a named run with
a non-empty content range, and clears the flag; nothing is done when the flag is
clear; and `Hello <b>World</b>!` parsed into its three runs gives `Hello World!`. -/
theorem RefreshPlainText_spec (Process : List Char → List FTextLineParseResults × List Char) :
    (∀ s : UGameSetting σ, s.bRefreshPlainSearchableText = true →
      (RefreshPlainText Process s).AutoGenerated_DescriptionPlainText
          = plainTextSpec (Process s.DescriptionRichText).1 (Process s.DescriptionRichText).2
        ∧ (RefreshPlainText Process s).bRefreshPlainSearchableText = false
        ∧ (GetDescriptionPlainText Process s).1
          = plainTextSpec (Process s.DescriptionRichText).1 (Process s.DescriptionRichText).2)
    ∧ (∀ s : UGameSetting σ, s.bRefreshPlainSearchableText = false → RefreshPlainText Process s = s)
    ∧ (∀ s : UGameSetting σ, s.bRefreshPlainSearchableText = true →
        Process s.DescriptionRichText = (helloWorldRuns, "Hello <b>World</b>!".toList) →
        (GetDescriptionPlainText Process s).1 = "Hello World!".toList) := by
  refine ⟨?_, ?_, ?_⟩
  · intro s h
    simp [GetDescriptionPlainText, RefreshPlainText, h, appendLines_eq]
  · intro s h
    simp [RefreshPlainText, h]
  · intro s h hp
    simp only [GetDescriptionPlainText, RefreshPlainText, h, hp, if_true]
    decide

theorem GetAll_replicate_same (n : Nat) (c : FStringCultureCache) :
    c.GetAll (List.replicate n c.Culture) = (List.replicate n c.StringCache, c) := by
  induction n with
  | zero => rfl
  | succ n ih => simp [List.replicate_succ, FStringCultureCache.GetAll, FStringCultureCache.Get, ih]

theorem GetAll_calls (locales : List Nat) :
    ∀ c : FStringCultureCache,
      (c.GetAll locales).2.calls = c.calls + cultureChanges c.Culture locales := by
  induction locales with
  | nil => intro c; simp [FStringCultureCache.GetAll, cultureChanges]
  | cons l rest ih =>
    intro c
    by_cases h : c.Culture = l
    · simp [FStringCultureCache.GetAll, FStringCultureCache.Get, cultureChanges, h, ih]
    · simp [FStringCultureCache.GetAll, FStringCultureCache.Get, cultureChanges, h, ih]
      omega

/-- C5: a `Get` under the cached culture returns the stored string and leaves the
cache as it is, without a call of the producer; a `Get` under another culture calls
the producer once and stores the culture, and every further `Get` under that culture
returns the same string without a call; over any run of `Get` calls the producer is
called once for each call that finds the culture changed. -/
theorem FStringCultureCache_Get_spec (c : FStringCultureCache) :
    (∀ current, c.Culture = current → c.Get current = (c.StringCache, c))
    ∧ (∀ current n, c.Culture ≠ current →
        (c.GetAll (List.replicate (n + 1) current)).1
            = List.replicate (n + 1) (c.StringGetter c.calls)
          ∧ (c.GetAll (List.replicate (n + 1) current)).2.calls = c.calls + 1
          ∧ (c.GetAll (List.replicate (n + 1) current)).2.Culture = current
          ∧ (c.GetAll (List.replicate (n + 1) current)).2.StringCache = c.StringGetter c.calls)
    ∧ (∀ locales, (c.GetAll locales).2.calls = c.calls + cultureChanges c.Culture locales) := by
  refine ⟨?_, ?_, fun locales => GetAll_calls locales c⟩
  · intro current h
    simp [FStringCultureCache.Get, h]
  · intro current n h
    have key := GetAll_replicate_same n
      { c with StringCache := c.StringGetter c.calls, calls := c.calls + 1, Culture := current }
    simp only at key
    simp [List.replicate_succ, FStringCultureCache.GetAll, FStringCultureCache.Get, h, key]

theorem gatherEditConditions_eq_foldl (p : Option Nat) (cs : List (FGameSettingEditCondition σ)) :
    ∀ st, gatherEditConditions p st cs = cs.foldl (fun a c => c.GatherEditState p a) st := by
  induction cs with
  | nil => intro st; rfl
  | cons c rest ih => intro st; simp [gatherEditConditions, ih]

/-- C7: whatever the node-local rule `OnGatherEditState` of the setting,
`ComputeEditableState` is the left fold of the `GatherEditState` of the attached
conditions, in the order of attachment, over the node-local rule applied to a
default-constructed state, and it leaves every setting (so the cache) as it is; in
particular a condition is evaluated after the node-local rule, so that a condition
that writes `y` gives `y` whatever the rule writes; a condition attached by
`AddEditCondition` is evaluated after those attached before; and two conditions that
write different states give different results in the two orders of attachment. -/
theorem ComputeEditableState_spec [Inhabited σ] :
    (∀ (w : World σ) (self : Nat) (s : UGameSetting σ), w.get? self = some s →
      (ComputeEditableState w self).1
          = s.EditConditions.foldl (fun a c => c.GatherEditState s.LocalPlayer a)
              (s.OnGatherEditState default)
        ∧ (ComputeEditableState w self).2.settings = w.settings)
    ∧ (∀ (w : World σ) (self : Nat) (s : UGameSetting σ) (c : FGameSettingEditCondition σ)
        (x y : σ), w.get? self = some s → s.OnGatherEditState = (fun _ => x) →
        s.EditConditions = [c] → c.GatherEditState = (fun _ _ => y) →
        (ComputeEditableState w self).1 = y)
    ∧ (∀ (w : World σ) (self : Nat) (s : UGameSetting σ) (c : FGameSettingEditCondition σ),
        w.get? self = some s →
        (ComputeEditableState (AddEditCondition w self c) self).1
          = c.GatherEditState s.LocalPlayer (ComputeEditableState w self).1)
    ∧ (∀ x y : σ, x ≠ y →
        ∃ c1 c2 : FGameSettingEditCondition σ,
          ∀ (w : World σ) (self : Nat) (s : UGameSetting σ), w.get? self = some s →
            (ComputeEditableState (AddEditCondition (AddEditCondition w self c1) self c2) self).1
              ≠ (ComputeEditableState (AddEditCondition (AddEditCondition w self c2) self c1) self).1) := by
  have add : ∀ (w : World σ) (self : Nat) (s : UGameSetting σ) (c : FGameSettingEditCondition σ),
      w.get? self = some s →
      (AddEditCondition w self c).get? self
        = some { s with EditConditions := s.EditConditions ++ [c] } := by
    intro w self s c h
    have : (AddEditCondition w self c).get? self
        = (w.modify self fun s => { s with EditConditions := s.EditConditions ++ [c] }).get? self := rfl
    rw [this, get?_modify_self, h]; rfl
  have val : ∀ (w : World σ) (self : Nat) (s : UGameSetting σ), w.get? self = some s →
      (ComputeEditableState w self).1
        = s.EditConditions.foldl (fun a c => c.GatherEditState s.LocalPlayer a)
            (s.OnGatherEditState default) := by
    intro w self s h
    simp [ComputeEditableState, h, UGameSetting.ComputeEditableState, gatherEditConditions_eq_foldl]
  refine ⟨?_, ?_, ?_, ?_⟩
  · intro w self s h
    refine ⟨val w self s h, ?_⟩
    simp [ComputeEditableState, h, World.log]
  · intro w self s c x y h hrule hconds hc
    rw [val w self s h, hconds, hrule, List.foldl_cons, List.foldl_nil, hc]
  · intro w self s c h
    rw [val _ self _ (add w self s c h), val w self s h]
    simp [List.foldl_append]
  · intro x y hxy
    refine ⟨⟨0, fun _ _ => x⟩, ⟨1, fun _ _ => y⟩, ?_⟩
    intro w self s h
    rw [val _ self _ (add _ self _ _ (add w self s _ h)),
      val _ self _ (add _ self _ _ (add w self s _ h))]
    simp [List.foldl_append]
    exact fun h => hxy h.symm

/-- C2: on a setting whose `LocalPlayer` is null, `RefreshEditableState` returns the
world it was given: no member changes (the cache and the two guards included), no
event is recorded, and the broadcast depth is as before. -/
theorem RefreshEditableState_null_session [Inhabited σ] (fuel : Nat) (w : World σ) (self : Nat)
    (s : UGameSetting σ) (bNotifyEditConditionsChanged : Bool)
    (hs : w.get? self = some s) (hnull : s.LocalPlayer = none) :
    RefreshEditableState (fuel + 1) w self bNotifyEditConditionsChanged = some w := by
  simp [RefreshEditableState, hs, hnull]

/-! ## Notifications return, and what they preserve -/

section Notify

variable [Inhabited σ]

theorem shape_eq_iff (w w' : World σ) :
    w'.shape = w.shape ↔
      ∀ j, (w'.get? j).map UGameSetting.forgetCache = (w.get? j).map UGameSetting.forgetCache := by
  constructor
  · intro h j
    have := congrArg (fun l => l[j]?) h
    simpa [World.shape, World.get?, List.getElem?_map] using this
  · intro h
    apply List.ext_getElem?
    intro j
    simpa [World.shape, World.get?, List.getElem?_map] using h j

theorem shape_get (w w' : World σ) (h : w'.shape = w.shape) (i : Nat) (s : UGameSetting σ)
    (hs : w.get? i = some s) : ∃ s', w'.get? i = some s' ∧ s'.forgetCache = s.forgetCache := by
  have := (shape_eq_iff w w').1 h i
  rw [hs] at this
  cases h' : w'.get? i with
  | none => rw [h'] at this; simp at this
  | some s' => rw [h'] at this; exact ⟨s', rfl, by simpa using this⟩

theorem shape_get_none (w w' : World σ) (h : w'.shape = w.shape) (i : Nat)
    (hs : w.get? i = none) : w'.get? i = none := by
  have := (shape_eq_iff w w').1 h i
  rw [hs] at this
  cases h' : w'.get? i with
  | none => rfl
  | some s' => rw [h'] at this; simp at this

theorem guardsFree_shape (w : World σ) : guardsFree w.shape = guardsFree w.settings := by
  have h : (guardWeight ∘ (UGameSetting.forgetCache : UGameSetting σ → UGameSetting σ))
      = guardWeight := rfl
  simp only [guardsFree, World.shape, List.map_map, h]

theorem guardsFree_eq_of_shape (w w' : World σ) (h : w'.shape = w.shape) :
    guardsFree w'.settings = guardsFree w.settings := by
  rw [← guardsFree_shape, ← guardsFree_shape, h]

theorem sum_map_modify {α : Type} (g : α → Nat) (f : α → α) :
    ∀ (l : List α) (i : Nat) (a : α), l[i]? = some a →
      ((l.modify f i).map g).sum + g a = (l.map g).sum + g (f a) := by
  intro l
  induction l with
  | nil => intro i a h; simp at h
  | cons b rest ih =>
    intro i a h
    cases i with
    | zero =>
      simp at h
      subst h
      simp [List.modify_zero_cons]
      omega
    | succ i =>
      simp at h
      have := ih i a h
      simp [List.modify_succ_cons]
      omega

omit [Inhabited σ] in
theorem guardsFree_le (l : List (UGameSetting σ)) : guardsFree l ≤ 2 * l.length := by
  induction l with
  | nil => simp [guardsFree]
  | cons a rest ih =>
    simp only [guardsFree, List.map_cons, List.sum_cons, List.length_cons] at ih ⊢
    have : guardWeight a ≤ 2 := by
      unfold guardWeight
      split <;> split <;> omega
    omega

omit [Inhabited σ] in
theorem guardsFree_hold_changed (w : World σ) (x : Nat) (s : UGameSetting σ)
    (hs : w.get? x = some s) (hg : s.bOnSettingChangedEventGuard = false) :
    guardsFree (w.setChangedGuard x true).settings + 1 = guardsFree w.settings := by
  have := sum_map_modify guardWeight
    (fun t : UGameSetting σ => { t with bOnSettingChangedEventGuard := true }) w.settings x s hs
  have h1 : guardWeight { s with bOnSettingChangedEventGuard := true } + 1 = guardWeight s := by
    simp [guardWeight, hg]; omega
  beta_reduce at this
  simp only [guardsFree, World.modify, World.setChangedGuard]
  omega

omit [Inhabited σ] in
theorem guardsFree_hold_edit (w : World σ) (x : Nat) (s : UGameSetting σ)
    (hs : w.get? x = some s) (hg : s.bOnEditConditionsChangedEventGuard = false) :
    guardsFree (w.setEditGuard x true).settings + 1 = guardsFree w.settings := by
  have := sum_map_modify guardWeight
    (fun t : UGameSetting σ => { t with bOnEditConditionsChangedEventGuard := true }) w.settings x s hs
  have h1 : guardWeight { s with bOnEditConditionsChangedEventGuard := true } + 1 = guardWeight s := by
    simp [guardWeight, hg]
  beta_reduce at this
  simp only [guardsFree, World.modify, World.setEditGuard]
  omega

theorem Pres.same (w : World σ) (b : Nat) : Pres w w [] b :=
  ⟨rfl, rfl, le_max_left _ _, by simp⟩

theorem Pres.step {w w1 w2 : World σ} {d1 d2 : List Event} {b : Nat}
    (h1 : Pres w w1 d1 b) (h2 : Pres w1 w2 d2 b) : Pres w w2 (d1 ++ d2) b := by
  refine ⟨h2.shape.trans h1.shape, h2.depth.trans h1.depth, ?_, ?_⟩
  · have a := h1.maxDepth
    have c := h2.maxDepth
    omega
  · rw [h2.trace, h1.trace, List.append_assoc]

theorem Pres.mono {w w1 : World σ} {d : List Event} {b b' : Nat}
    (h : Pres w w1 d b) (hb : b ≤ b') : Pres w w1 d b' := by
  refine ⟨h.shape, h.depth, ?_, h.trace⟩
  have a := h.maxDepth
  omega

theorem Pres.of_log {w w1 : World σ} {es d : List Event} {b : Nat}
    (h : Pres (w.log es) w1 d b) : Pres w w1 (es ++ d) b :=
  ⟨h.shape, h.depth, h.maxDepth, by rw [h.trace]; simp [World.log]⟩

theorem shape_setCache (w : World σ) (i : Nat) (v : σ) : (w.setCache i v).shape = w.shape := by
  rw [shape_eq_iff]
  intro j
  rw [World.setCache, get?_modify]
  split
  · cases w.get? j <;> simp [UGameSetting.forgetCache]
  · rfl

theorem Pres.guards {w w1 : World σ} {d : List Event} {b : Nat} (h : Pres w w1 d b)
    (i : Nat) (s : UGameSetting σ) (hs : w.get? i = some s) :
    ∃ s1, w1.get? i = some s1
      ∧ s1.bOnSettingChangedEventGuard = s.bOnSettingChangedEventGuard
      ∧ s1.bOnEditConditionsChangedEventGuard = s.bOnEditConditionsChangedEventGuard
      ∧ s1.OnSettingChangedEvent = s.OnSettingChangedEvent
      ∧ s1.LocalPlayer = s.LocalPlayer := by
  obtain ⟨s1, h1, h2⟩ := shape_get w w1 h.shape i s hs
  have a := congrArg UGameSetting.bOnSettingChangedEventGuard h2
  have b := congrArg UGameSetting.bOnEditConditionsChangedEventGuard h2
  have c := congrArg UGameSetting.OnSettingChangedEvent h2
  have e := congrArg UGameSetting.LocalPlayer h2
  exact ⟨s1, h1, a, b, c, e⟩

omit [Inhabited σ] in
theorem Quiet.nil (w : World σ) (es : List Event) : Quiet w es es := fun _ _ _ _ => rfl

omit [Inhabited σ] in
theorem Quiet.append {w : World σ} {d1 d2 b1 b2 : List Event}
    (h1 : Quiet w d1 b1) (h2 : Quiet w d2 b2) : Quiet w (d1 ++ d2) (b1 ++ b2) := by
  intro y s hs hg
  rw [List.filter_append, List.filter_append, h1 y s hs hg, h2 y s hs hg]

omit [Inhabited σ] in
theorem Quiet.of_held {w w1 : World σ} {d b : List Event}
    (held : ∀ y s, w.get? y = some s → s.bOnSettingChangedEventGuard = true →
      ∃ s1, w1.get? y = some s1 ∧ s1.bOnSettingChangedEventGuard = true)
    (h : Quiet w1 d b) : Quiet w d b := by
  intro y s hs hg
  obtain ⟨s1, h1, h2⟩ := held y s hs hg
  exact h y s1 h1 h2

theorem Quiet.of_shape {w w1 : World σ} {d b : List Event} (hsh : w1.shape = w.shape)
    (h : Quiet w1 d b) : Quiet w d b := by
  refine Quiet.of_held ?_ h
  intro y s hs hg
  obtain ⟨s1, h1, h2⟩ := shape_get w w1 hsh y s hs
  have a := congrArg UGameSetting.bOnSettingChangedEventGuard h2
  exact ⟨s1, h1, Eq.trans a hg⟩

omit [Inhabited σ] in
theorem Quiet.silent (w : World σ) (es : List Event)
    (h : ∀ e ∈ es, ∀ y, Event.onChangedChannel y e = false) : Quiet w es [] := by
  intro y s _ _
  simp only [List.filter_nil, List.filter_eq_nil_iff]
  intro e he
  simp [h e he y]

theorem forEach_pres {α : Type} (f : World σ → α → Option (World σ)) (ev : α → List Event)
    (b : Nat) (l : List α) :
    ∀ w0 : World σ,
      (∀ v a, a ∈ l → v.shape = w0.shape → v.depth = w0.depth →
        ∃ v' d, f v a = some v' ∧ Pres v v' (ev a ++ d) b ∧ Quiet v d []) →
      ∃ w' d, forEach f l w0 = some w' ∧ Pres w0 w' d b ∧ Quiet w0 d (l.map ev).flatten := by
  induction l with
  | nil =>
    intro w0 _
    exact ⟨w0, [], rfl, Pres.same w0 b, Quiet.nil w0 []⟩
  | cons a rest ih =>
    intro w0 hstep
    obtain ⟨v1, d1, hf, hp, hq⟩ := hstep w0 a (List.mem_cons_self a rest) rfl rfl
    obtain ⟨w', d', hfe, hp', hq'⟩ := ih v1 (by
      intro v a' ha' hsh hd
      exact hstep v a' (List.mem_cons_of_mem a ha') (hsh.trans hp.shape) (hd.trans hp.depth))
    refine ⟨w', (ev a ++ d1) ++ d', ?_, hp.step hp', ?_⟩
    · simp [forEach, hf, hfe]
    · have h1 : Quiet w0 (ev a ++ d1) (ev a ++ []) := (Quiet.nil w0 (ev a)).append hq
      have h2 := h1.append (Quiet.of_shape hp.shape hq')
      simpa using h2

theorem shape_restore_changed (w w5 : World σ) (x : Nat) (s : UGameSetting σ)
    (hs : w.get? x = some s) (hg : s.bOnSettingChangedEventGuard = false)
    (h5 : w5.shape = (w.setChangedGuard x true).shape) :
    (w5.setChangedGuard x false).shape = w.shape := by
  rw [shape_eq_iff] at h5 ⊢
  intro j
  have hj := h5 j
  rw [World.setChangedGuard, get?_modify] at hj ⊢
  split at hj
  · rename_i hxj
    subst hxj
    rw [if_pos rfl]
    rw [hs] at hj ⊢
    cases h : w5.get? x with
    | none => rw [h] at hj; simp at hj
    | some s5 =>
      rw [h] at hj
      rcases s5 with ⟨⟩
      rcases s with ⟨⟩
      simp [UGameSetting.forgetCache] at hj hg ⊢
      simp [hj, hg]
  · rename_i hxj
    rw [if_neg hxj]
    exact hj

theorem shape_restore_edit (w w5 : World σ) (x : Nat) (s : UGameSetting σ)
    (hs : w.get? x = some s) (hg : s.bOnEditConditionsChangedEventGuard = false)
    (h5 : w5.shape = (w.setEditGuard x true).shape) :
    (w5.setEditGuard x false).shape = w.shape := by
  rw [shape_eq_iff] at h5 ⊢
  intro j
  have hj := h5 j
  rw [World.setEditGuard, get?_modify] at hj ⊢
  split at hj
  · rename_i hxj
    subst hxj
    rw [if_pos rfl]
    rw [hs] at hj ⊢
    cases h : w5.get? x with
    | none => rw [h] at hj; simp at hj
    | some s5 =>
      rw [h] at hj
      rcases s5 with ⟨⟩
      rcases s with ⟨⟩
      simp [UGameSetting.forgetCache] at hj hg ⊢
      simp [hj, hg]
  · rename_i hxj
    rw [if_neg hxj]
    exact hj

omit [Inhabited σ] in
theorem held_modify (w : World σ) (x : Nat) (f : UGameSetting σ → UGameSetting σ)
    (hf : ∀ t, t.bOnSettingChangedEventGuard = true → (f t).bOnSettingChangedEventGuard = true) :
    ∀ y s, w.get? y = some s → s.bOnSettingChangedEventGuard = true →
      ∃ s1, (w.modify x f).get? y = some s1 ∧ s1.bOnSettingChangedEventGuard = true := by
  intro y s hs hg
  rw [get?_modify]
  split
  · exact ⟨f s, by simp [hs], hf s hg⟩
  · exact ⟨s, hs, hg⟩

theorem filter_invoke_other (x y : Nat) (R : Option EGameSettingChangeReason) (hxy : x ≠ y)
    (l : List Listener) :
    ((l.map fun a => [Event.Invoke x a R]).flatten).filter (Event.onChangedChannel y) = [] := by
  induction l with
  | nil => rfl
  | cons a rest ih =>
    cases R <;> simp_all [Event.onChangedChannel]

theorem filter_invoke_none (x y : Nat) (l : List Listener) :
    ((l.map fun a => [Event.Invoke x a none]).flatten).filter (Event.onChangedChannel y) = [] := by
  induction l with
  | nil => rfl
  | cons a rest ih => simp_all [Event.onChangedChannel]

omit [Inhabited σ] in
theorem held_ne (w : World σ) (x y : Nat) (s t : UGameSetting σ) (hs : w.get? x = some s)
    (hg : s.bOnSettingChangedEventGuard = false) (ht : w.get? y = some t)
    (hgt : t.bOnSettingChangedEventGuard = true) : x ≠ y := by
  rintro rfl
  rw [hs] at ht
  cases ht
  rw [hg] at hgt
  cases hgt

theorem notify_step (f : Nat) (hI : InvokeOK σ f) : NotifyOK σ (f + 1) := by
  intro w x r hfuel
  cases hs : w.get? x with
  | none => exact ⟨w, [], by simp [NotifySettingChanged, hs], Pres.same _ _, Quiet.nil _ _⟩
  | some s =>
    generalize hes : (Event.OnSettingChanged x r :: s.EditConditions.map fun c =>
      Event.ConditionSettingChanged c.Id s.LocalPlayer x r) = es
    have hsilent : ∀ e ∈ es, ∀ y, Event.onChangedChannel y e = false := by
      intro e he y
      subst hes
      simp at he
      rcases he with rfl | ⟨c, _, rfl⟩ <;> rfl
    cases hg : s.bOnSettingChangedEventGuard with
    | true =>
      refine ⟨w.log es, es, by simp [NotifySettingChanged, hs, hg, hes],
        ⟨rfl, rfl, le_max_left _ _, rfl⟩, Quiet.silent _ _ hsilent⟩
    | false =>
      have hk := guardsFree_hold_changed w x s hs hg
      obtain ⟨w5, d5, hfe, hp5, hq5⟩ := forEach_pres
        (fun v l => InvokeListener f v l x (some r)) (fun l => [Event.Invoke x l (some r)])
        (w.depth + guardsFree w.settings) s.OnSettingChangedEvent
        ((((w.log es).setChangedGuard x true).log [Event.BroadcastSettingChanged x r]).enterBroadcast)
        (by
          intro v l _ hsh hd
          have hgf : guardsFree v.settings = guardsFree (w.setChangedGuard x true).settings :=
            guardsFree_eq_of_shape _ _ hsh
          have hd' : v.depth = w.depth + 1 := hd
          obtain ⟨v', d, h1, h2, h3⟩ := hI v l x (some r) (by omega)
          refine ⟨v', d, h1, ?_, h3⟩
          have : v.depth + guardsFree v.settings = w.depth + guardsFree w.settings := by omega
          rw [← this]; exact h2)
      refine ⟨w5.leaveBroadcast.setChangedGuard x false,
        (es ++ [Event.BroadcastSettingChanged x r]) ++ d5, by
        simp only [NotifySettingChanged, hs, hg, hfe, hes], ⟨?_, ?_, ?_, ?_⟩, ?_⟩
      · exact shape_restore_changed w w5.leaveBroadcast x s hs hg hp5.shape
      · have e : w5.depth = w.depth + 1 := hp5.depth
        show w5.depth - 1 = w.depth
        omega
      · have e : w5.maxDepth ≤ max (max w.maxDepth (w.depth + 1)) (w.depth + guardsFree w.settings) :=
          hp5.maxDepth
        show w5.maxDepth ≤ _
        omega
      · show w5.trace = _
        rw [hp5.trace]
        simp [World.log, World.enterBroadcast, World.modify, World.setChangedGuard]
      · have q1 : Quiet w (es ++ [Event.BroadcastSettingChanged x r]) [] := by
          intro y t ht hgt
          have hxy := held_ne w x y s t hs hg ht hgt
          have := Quiet.silent w es hsilent y t ht hgt
          rw [List.filter_append, this]
          simp [Event.onChangedChannel, hxy]
        have q2 : Quiet w d5 [] := by
          intro y t ht hgt
          have hxy := held_ne w x y s t hs hg ht hgt
          have := hq5 y t (by
            simpa [World.setChangedGuard, get?_modify_other _ _ hxy] using ht) hgt
          rw [this, filter_invoke_other x y _ hxy]
          rfl
        exact q1.append q2

theorem notifyEdit_step (f : Nat) (hI : InvokeOK σ f) : NotifyEditOK σ (f + 1) := by
  intro w x hfuel
  cases hs : w.get? x with
  | none =>
    exact ⟨w, [], by simp [NotifyEditConditionsChanged, hs], Pres.same _ _, Quiet.nil _ _⟩
  | some s =>
    obtain ⟨w3, d3, hfe, hp3, hq3⟩ := forEach_pres
      (fun v l => InvokeListener f v l x none) (fun l => [Event.Invoke x l none])
      (w.depth + guardsFree w.settings + 1) s.OnSettingEditConditionChangedEvent
      (((w.log [Event.OnEditConditionsChanged x]).log
        [Event.BroadcastEditConditionChanged x]).enterBroadcast)
      (by
        intro v l _ hsh hd
        have hgf : guardsFree v.settings = guardsFree w.settings :=
          guardsFree_eq_of_shape _ _ hsh
        have hd' : v.depth = w.depth + 1 := hd
        obtain ⟨v', d, h1, h2, h3⟩ := hI v l x none (by omega)
        refine ⟨v', d, h1, ?_, h3⟩
        have : v.depth + guardsFree v.settings = w.depth + guardsFree w.settings + 1 := by omega
        rw [← this]; exact h2)
    refine ⟨w3.leaveBroadcast,
      [Event.OnEditConditionsChanged x, Event.BroadcastEditConditionChanged x] ++ d3, by
      simp only [NotifyEditConditionsChanged, hs, hfe], ⟨?_, ?_, ?_, ?_⟩, ?_⟩
    · exact hp3.shape
    · have e : w3.depth = w.depth + 1 := hp3.depth
      show w3.depth - 1 = w.depth
      omega
    · have e : w3.maxDepth
          ≤ max (max w.maxDepth (w.depth + 1)) (w.depth + guardsFree w.settings + 1) :=
        hp3.maxDepth
      show w3.maxDepth ≤ _
      omega
    · show w3.trace = _
      rw [hp3.trace]
      simp [World.log, World.enterBroadcast]
    · have q1 : Quiet w [Event.OnEditConditionsChanged x, Event.BroadcastEditConditionChanged x] [] := by
        apply Quiet.silent
        intro e he y
        simp at he
        rcases he with rfl | rfl <;> rfl
      have q2 : Quiet w d3 [] := by
        intro y t ht hgt
        have := hq3 y t ht hgt
        rw [this, filter_invoke_none x y]
        rfl
      exact q1.append q2

theorem refresh_step (f : Nat) (hE : NotifyEditOK σ f) : RefreshOK σ (f + 1) := by
  intro w x b hfuel
  cases hs : w.get? x with
  | none => exact ⟨w, [], by simp [RefreshEditableState, hs], Pres.same _ _, Quiet.nil _ _⟩
  | some s =>
    cases hl : s.LocalPlayer with
    | none => exact ⟨w, [], by simp [RefreshEditableState, hs, hl], Pres.same _ _, Quiet.nil _ _⟩
    | some p =>
      cases hg : s.bOnEditConditionsChangedEventGuard with
      | true =>
        exact ⟨w, [], by simp [RefreshEditableState, hs, hl, hg], Pres.same _ _, Quiet.nil _ _⟩
      | false =>
        have hk := guardsFree_hold_edit w x s hs hg
        have hs1 : (w.setEditGuard x true).get? x
            = some { s with bOnEditConditionsChangedEventGuard := true } := by
          simp [World.setEditGuard, hs]
        have hc : ComputeEditableState (w.setEditGuard x true) x
            = (UGameSetting.ComputeEditableState { s with bOnEditConditionsChangedEventGuard := true },
                (w.setEditGuard x true).log [Event.ComputeEditableState x]) := by
          simp [ComputeEditableState, hs1]
        generalize hv :
          UGameSetting.ComputeEditableState { s with bOnEditConditionsChangedEventGuard := true } = v
          at hc
        have hsh2 : (((w.setEditGuard x true).log [Event.ComputeEditableState x]).setCache x v).shape
            = (w.setEditGuard x true).shape := shape_setCache _ x v
        have hq0 : Quiet w [Event.ComputeEditableState x] [] := by
          apply Quiet.silent
          intro e he y
          simp at he
          subst he
          rfl
        cases b with
        | false =>
          refine ⟨(((w.setEditGuard x true).log [Event.ComputeEditableState x]).setCache x v).setEditGuard
            x false, [Event.ComputeEditableState x], by
              simp only [RefreshEditableState, hs, hl, hg, hc], ⟨?_, rfl, le_max_left _ _, rfl⟩, hq0⟩
          exact shape_restore_edit w _ x s hs hg hsh2
        | true =>
          have hgf : guardsFree
              (((w.setEditGuard x true).log [Event.ComputeEditableState x]).setCache x v).settings
              = guardsFree (w.setEditGuard x true).settings := guardsFree_eq_of_shape _ _ hsh2
          obtain ⟨w3, d3, h1, h2, h3⟩ := hE
            (((w.setEditGuard x true).log [Event.ComputeEditableState x]).setCache x v) x
            (by omega)
          refine ⟨w3.setEditGuard x false, [Event.ComputeEditableState x] ++ d3, by
            simp only [RefreshEditableState, hs, hl, hg, hc, h1], ⟨?_, ?_, ?_, ?_⟩, ?_⟩
          · exact shape_restore_edit w w3 x s hs hg (h2.shape.trans hsh2)
          · exact h2.depth
          · have e := h2.maxDepth
            have e' : w3.maxDepth ≤ max w.maxDepth (w.depth
                + guardsFree (((w.setEditGuard x true).log
                    [Event.ComputeEditableState x]).setCache x v).settings + 1) := e
            show w3.maxDepth ≤ _
            omega
          · show w3.trace = _
            rw [h2.trace]
            simp [World.log, World.setCache, World.setEditGuard, World.modify]
          · refine hq0.append (Quiet.of_held ?_ h3)
            intro y t ht hgt
            have a := held_modify w x (fun t => { t with bOnEditConditionsChangedEventGuard := true })
              (fun _ h => h) y t ht hgt
            obtain ⟨s1, hs1', hg1⟩ := a
            exact held_modify ((w.setEditGuard x true).log [Event.ComputeEditableState x]) x
              (fun t => { t with EditableStateCache := v }) (fun _ h => h) y s1 hs1' hg1

theorem handle_step (f : Nat) (hR : RefreshOK σ f) (hN : NotifyOK σ f) : HandleOK σ (f + 1) := by
  intro w x dep R hfuel
  cases hs : w.get? x with
  | none =>
    exact ⟨w, [], by simp [HandleEditDependencyChanged, hs], Pres.same _ _, Quiet.nil _ _⟩
  | some s =>
    obtain ⟨w2, d2, h1, h2, h3⟩ := hR (w.log [Event.OnDependencyChanged x]) x true
      (by show 4 * guardsFree w.settings + 1 ≤ f; omega)
    have q0 : Quiet w [Event.OnDependencyChanged x] [] := by
      apply Quiet.silent
      intro e he y
      simp at he
      subst he
      rfl
    have p2 : Pres w w2 ([Event.OnDependencyChanged x] ++ d2) (w.depth + guardsFree w.settings) :=
      Pres.of_log h2
    have q2 : Quiet w ([Event.OnDependencyChanged x] ++ d2) [] := q0.append h3
    have stop : HandleEditDependencyChanged (f + 1) w x dep none = some w2 := by
      simp only [HandleEditDependencyChanged, hs, h1]
    cases R with
    | none => exact ⟨w2, _, stop, p2, q2⟩
    | some r =>
      by_cases hr : r = EGameSettingChangeReason.DependencyChanged
      · refine ⟨w2, _, ?_, p2, q2⟩
        simp [HandleEditDependencyChanged, hs, h1, hr]
      · have hgf := guardsFree_eq_of_shape _ _ p2.shape
        obtain ⟨w3, d3, k1, k2, k3⟩ := hN w2 x EGameSettingChangeReason.DependencyChanged
          (by omega)
        refine ⟨w3, ([Event.OnDependencyChanged x] ++ d2) ++ d3, ?_, p2.step ?_, ?_⟩
        · simp [HandleEditDependencyChanged, hs, h1, hr, k1]
        · have : w2.depth + guardsFree w2.settings = w.depth + guardsFree w.settings := by
            rw [hgf, p2.depth]
          rw [← this]; exact k2
        · exact q2.append (Quiet.of_shape p2.shape k3)

theorem invoke_step (f : Nat) (hH : HandleOK σ f) (hR : RefreshOK σ f) (hN : NotifyOK σ f) :
    InvokeOK σ (f + 1) := by
  intro w l src R hfuel
  cases l with
  | editDependency owner =>
    obtain ⟨w1, d1, h1, h2, h3⟩ := hH
      (w.log [Event.Invoke src (Listener.editDependency owner) R]) owner src R
      (by show 4 * guardsFree w.settings + 2 ≤ f; omega)
    exact ⟨w1, d1, by simp only [InvokeListener, h1], Pres.of_log h2, h3⟩
  | external tag body =>
    obtain ⟨w1, d1, h1, h2, h3⟩ := forEach_pres
      (fun v c =>
        match c with
        | Call.NotifySettingChanged target r => NotifySettingChanged f v target r
        | Call.RefreshEditableState target b => RefreshEditableState f v target b)
      (fun _ => []) (w.depth + guardsFree w.settings) body
      (w.log [Event.Invoke src (Listener.external tag body) R])
      (by
        intro v c _ hsh hd
        have hgf : guardsFree v.settings = guardsFree w.settings :=
          guardsFree_eq_of_shape _ _ hsh
        have hd' : v.depth = w.depth := hd
        have e : v.depth + guardsFree v.settings = w.depth + guardsFree w.settings := by omega
        cases c with
        | NotifySettingChanged target r =>
          obtain ⟨v', d, k1, k2, k3⟩ := hN v target r (by omega)
          exact ⟨v', d, k1, by rw [← e]; exact k2, k3⟩
        | RefreshEditableState target b =>
          obtain ⟨v', d, k1, k2, k3⟩ := hR v target b (by omega)
          exact ⟨v', d, k1, by rw [← e]; exact k2, k3⟩)
    refine ⟨w1, d1, by simp only [InvokeListener, h1], Pres.of_log h2, ?_⟩
    have hnil : ((body.map fun _ => ([] : List Event)).flatten) = [] := by
      induction body with
      | nil => rfl
      | cons a rest ih => simp
    rw [hnil] at h3
    exact h3

theorem notify_ok : ∀ fuel : Nat,
    NotifyOK σ fuel ∧ RefreshOK σ fuel ∧ NotifyEditOK σ fuel ∧ HandleOK σ fuel ∧ InvokeOK σ fuel := by
  intro fuel
  induction fuel with
  | zero =>
    refine ⟨?_, ?_, ?_, ?_, ?_⟩ <;> intro w <;> intros <;> omega
  | succ f ih =>
    obtain ⟨hN, hR, hE, hH, hI⟩ := ih
    exact ⟨notify_step f hI, refresh_step f hE, notifyEdit_step f hI, handle_step f hR hN,
      invoke_step f hH hR hN⟩

theorem filter_invoke_same (x : Nat) (r : EGameSettingChangeReason) (l : List Listener) :
    ((l.map fun a => [Event.Invoke x a (some r)]).flatten).filter (Event.onChangedChannel x)
      = l.map fun a => Event.Invoke x a (some r) := by
  induction l with
  | nil => rfl
  | cons a rest ih => simp_all [Event.onChangedChannel]

theorem returns_restored (w w1 : World σ) (d : List Event)
    (h : Pres w w1 d (w.depth + guardsFree w.settings)) :
    w1.settings.length = w.settings.length ∧ w1.depth = w.depth
      ∧ w1.maxDepth ≤ max w.maxDepth (w.depth + 2 * w.settings.length)
      ∧ GuardsAsBefore w w1 ∧ (GuardsFree w → GuardsFree w1) := by
  have hlen : w1.settings.length = w.settings.length := by
    have := congrArg List.length h.shape
    simpa [World.shape] using this
  have hg : GuardsAsBefore w w1 := by
    intro i s hs
    obtain ⟨s1, h1, h2, h3, _⟩ := h.guards i s hs
    exact ⟨s1, h1, h2, h3⟩
  refine ⟨hlen, h.depth, ?_, hg, ?_⟩
  · have a := h.maxDepth
    have b := guardsFree_le w.settings
    omega
  · intro hfree i s1 hs1
    cases hs : w.get? i with
    | none => rw [shape_get_none w w1 h.shape i hs] at hs1; cases hs1
    | some s =>
      obtain ⟨s1', h1, h2, h3⟩ := hg i s hs
      rw [hs1] at h1
      cases h1
      obtain ⟨a, b⟩ := hfree i s hs
      exact ⟨h2.trans a, h3.trans b⟩

/-- C10: whatever the wiring of the listeners (cycles and self-reference included)
and whatever the sessions, `NotifySettingChanged` and `RefreshEditableState` return
when the fuel exceeds eight times the number of settings; on return the broadcast
depth is what it was, the nesting of broadcasts during the call has not exceeded the
depth at the call by more than twice the number of settings, every guard has the
value it had at the call, and if no guard was held then none is held. -/
theorem notification_terminates (w : World σ) (fuel : Nat)
    (hfuel : 8 * w.settings.length + 1 ≤ fuel) :
    (∀ x r, ∃ w1, NotifySettingChanged fuel w x r = some w1
      ∧ w1.settings.length = w.settings.length ∧ w1.depth = w.depth
      ∧ w1.maxDepth ≤ max w.maxDepth (w.depth + 2 * w.settings.length)
      ∧ GuardsAsBefore w w1 ∧ (GuardsFree w → GuardsFree w1))
    ∧ (∀ x b, ∃ w1, RefreshEditableState fuel w x b = some w1
      ∧ w1.settings.length = w.settings.length ∧ w1.depth = w.depth
      ∧ w1.maxDepth ≤ max w.maxDepth (w.depth + 2 * w.settings.length)
      ∧ GuardsAsBefore w w1 ∧ (GuardsFree w → GuardsFree w1)) := by
  have hb := guardsFree_le w.settings
  obtain ⟨hN, hR, _⟩ := notify_ok (σ := σ) fuel
  constructor
  · intro x r
    obtain ⟨w1, d, h1, h2, _⟩ := hN w x r (by omega)
    exact ⟨w1, h1, returns_restored w w1 d h2⟩
  · intro x b
    obtain ⟨w1, d, h1, h2, _⟩ := hR w x b (by omega)
    exact ⟨w1, h1, returns_restored w w1 d h2⟩

/-- C4: a call `NotifySettingChanged(r1)` on a setting whose changed guard is not
held returns, and whatever its listeners do (calls of `NotifySettingChanged` on the
same setting included) the changed channel of the setting shows one broadcast, with
`r1`, and one invocation of each listener, with `r1`; the guard is not held on
return; and a call made while the guard is held runs the hook and the edit
conditions and returns without a broadcast. -/
theorem NotifySettingChanged_no_nested_broadcast (w : World σ) (x : Nat) (s : UGameSetting σ)
    (r1 : EGameSettingChangeReason) (fuel : Nat)
    (hs : w.get? x = some s) (hg : s.bOnSettingChangedEventGuard = false)
    (hfuel : 8 * w.settings.length + 1 ≤ fuel) :
    (∃ w1 delta s1, NotifySettingChanged fuel w x r1 = some w1
      ∧ w1.trace = w.trace ++ delta
      ∧ delta.filter (Event.onChangedChannel x)
          = Event.BroadcastSettingChanged x r1
            :: s.OnSettingChangedEvent.map (fun l => Event.Invoke x l (some r1))
      ∧ w1.get? x = some s1 ∧ s1.bOnSettingChangedEventGuard = false)
    ∧ (∀ (v : World σ) (t : UGameSetting σ) (r2 : EGameSettingChangeReason) (n : Nat),
        v.get? x = some t → t.bOnSettingChangedEventGuard = true →
        NotifySettingChanged (n + 1) v x r2
          = some (v.log (Event.OnSettingChanged x r2 :: t.EditConditions.map fun c =>
              Event.ConditionSettingChanged c.Id t.LocalPlayer x r2))) := by
  constructor
  · obtain ⟨f, rfl⟩ : ∃ f, fuel = f + 1 := ⟨fuel - 1, by omega⟩
    have hI := (notify_ok (σ := σ) f).2.2.2.2
    have hb := guardsFree_le w.settings
    have hk := guardsFree_hold_changed w x s hs hg
    generalize hes : (Event.OnSettingChanged x r1 :: s.EditConditions.map fun c =>
      Event.ConditionSettingChanged c.Id s.LocalPlayer x r1) = es
    have hes0 : es.filter (Event.onChangedChannel x) = [] := by
      rw [← hes, List.filter_cons, filter_conditionEvents]
      rfl
    obtain ⟨w5, d5, hfe, hp5, hq5⟩ := forEach_pres
      (fun v l => InvokeListener f v l x (some r1)) (fun l => [Event.Invoke x l (some r1)])
      (w.depth + guardsFree w.settings) s.OnSettingChangedEvent
      ((((w.log es).setChangedGuard x true).log [Event.BroadcastSettingChanged x r1]).enterBroadcast)
      (by
        intro v l _ hsh hd
        have hgf : guardsFree v.settings = guardsFree (w.setChangedGuard x true).settings :=
          guardsFree_eq_of_shape _ _ hsh
        have hd' : v.depth = w.depth + 1 := hd
        obtain ⟨v', d, h1, h2, h3⟩ := hI v l x (some r1) (by omega)
        refine ⟨v', d, h1, ?_, h3⟩
        have : v.depth + guardsFree v.settings = w.depth + guardsFree w.settings := by omega
        rw [← this]; exact h2)
    have hx4 : ((((w.log es).setChangedGuard x true).log
        [Event.BroadcastSettingChanged x r1]).enterBroadcast).get? x
        = some { s with bOnSettingChangedEventGuard := true } := by
      simp [World.setChangedGuard, hs]
    obtain ⟨s5, hs5, _⟩ := shape_get _ w5 hp5.shape x _ hx4
    refine ⟨w5.leaveBroadcast.setChangedGuard x false,
      (es ++ [Event.BroadcastSettingChanged x r1]) ++ d5,
      { s5 with bOnSettingChangedEventGuard := false }, ?_, ?_, ?_, ?_, rfl⟩
    · simp only [NotifySettingChanged, hs, hg, hfe, hes]
    · show w5.trace = _
      rw [hp5.trace]
      simp [World.log, World.enterBroadcast, World.modify, World.setChangedGuard]
    · have := hq5 x _ hx4 rfl
      rw [List.filter_append, List.filter_append, hes0, this, filter_invoke_same]
      simp [Event.onChangedChannel]
    · simp [World.setChangedGuard, hs5]
  · intro v t r2 n hv ht
    simp [NotifySettingChanged, hv, ht]

end Notify

/-! ## Propagation along dependencies -/

section Dep

variable [Inhabited σ]

theorem compute_forget (t t1 : UGameSetting σ) (h : t1.forgetCache = t.forgetCache) :
    t1.ComputeEditableState = t.ComputeEditableState := by
  have := congrArg UGameSetting.ComputeEditableState h
  exact this

theorem Wired.by_shape {w w1 : World σ} (h : w1.shape = w.shape) (hw : Wired w) : Wired w1 := by
  intro i s1 hs1
  obtain ⟨s, hs, hf⟩ := shape_get w1 w h.symm i s1 hs1
  have a := congrArg UGameSetting.OnSettingChangedEvent hf
  have b := congrArg UGameSetting.OnSettingEditConditionChangedEvent hf
  have a' : s.OnSettingChangedEvent = s1.OnSettingChangedEvent := a
  have b' : s.OnSettingEditConditionChangedEvent = s1.OnSettingEditConditionChangedEvent := b
  rw [← a', ← b']
  exact hw i s hs

omit [Inhabited σ] in
theorem Wired.modify {w : World σ} (hw : Wired w) (x : Nat) (f : UGameSetting σ → UGameSetting σ)
    (h1 : ∀ t, (f t).OnSettingChangedEvent = t.OnSettingChangedEvent)
    (h2 : ∀ t, (f t).OnSettingEditConditionChangedEvent = t.OnSettingEditConditionChangedEvent) :
    Wired (w.modify x f) := by
  intro i s hs
  rw [get?_modify] at hs
  split at hs
  · cases ht : w.get? i with
    | none => rw [ht] at hs; simp at hs
    | some t =>
      rw [ht] at hs
      simp at hs
      subst hs
      rw [h1, h2]
      exact hw i t ht
  · exact hw i s hs

theorem Settled.unchanged (w : World σ) : Settled w w [] :=
  ⟨rfl, by simp, fun z t t1 h h1 => by
    rw [h] at h1
    cases h1
    exact Or.inl rfl⟩

theorem Settled.join {w w1 w2 : World σ} {d1 d2 : List Event}
    (h1 : Settled w w1 d1) (h2 : Settled w1 w2 d2) : Settled w w2 (d1 ++ d2) := by
  refine ⟨h2.shape.trans h1.shape, by rw [h2.trace, h1.trace, List.append_assoc], ?_⟩
  intro z t t2 hz hz2
  obtain ⟨t1, ht1, hf⟩ := shape_get w w1 h1.shape z t hz
  have hc := compute_forget t t1 hf
  rcases h2.cache z t1 t2 ht1 hz2 with a | a
  · rcases h1.cache z t t1 hz ht1 with b | b
    · exact Or.inl (a.trans b)
    · exact Or.inr (a.trans b)
  · exact Or.inr (a.trans hc)

theorem Settled.after_log {w w1 : World σ} {es d : List Event} (h : Settled (w.log es) w1 d) :
    Settled w w1 (es ++ d) :=
  ⟨h.shape, by rw [h.trace]; simp [World.log], h.cache⟩

theorem forEach_filter {α : Type} (f : World σ → α → Option (World σ)) (p : Event → Bool)
    (ev : α → List Event) (l : List α) (w0 : World σ) :
    ∀ (v0 : World σ) (d0 : List Event) (w1 : World σ), Settled w0 v0 d0 →
      (∀ v a v1 dv, a ∈ l → Settled w0 v dv → f v a = some v1 →
        ∃ d, Settled v v1 d ∧ d.filter p = ev a) →
      forEach f l v0 = some w1 →
      ∃ d, Settled v0 w1 d ∧ d.filter p = (l.map ev).flatten := by
  induction l with
  | nil =>
    intro v0 d0 w1 _ _ h
    simp [forEach] at h
    subst h
    exact ⟨[], Settled.unchanged v0, rfl⟩
  | cons a rest ih =>
    intro v0 d0 w1 h0 hstep h
    cases hf : f v0 a with
    | none => simp [forEach, hf] at h
    | some v1 =>
      simp only [forEach, hf] at h
      obtain ⟨d1, s1, e1⟩ := hstep v0 a v1 d0 (List.mem_cons_self a rest) h0 hf
      obtain ⟨d, s, e⟩ := ih v1 (d0 ++ d1) w1 (h0.join s1)
        (fun v a' v1' dv ha' hv hfv => hstep v a' v1' dv (List.mem_cons_of_mem a ha') hv hfv) h
      exact ⟨d1 ++ d, s1.join s, by simp [List.filter_append, e1, e]⟩

theorem forEach_append {α β : Type} (f : β → α → Option β) (l1 l2 : List α) :
    ∀ w : β, forEach f (l1 ++ l2) w = (forEach f l1 w).bind (forEach f l2) := by
  induction l1 with
  | nil => intro w; rfl
  | cons a rest ih =>
    intro w
    cases hf : f w a with
    | none => simp [forEach, hf]
    | some v => simp [forEach, hf, ih]

theorem cache_refresh (w w3 : World σ) (x : Nat) (s : UGameSetting σ) (es : List Event)
    (hs : w.get? x = some s)
    (hc : ∀ z t t3,
      (((w.setEditGuard x true).log es).setCache x s.ComputeEditableState).get? z = some t →
      w3.get? z = some t3 →
      t3.EditableStateCache = t.EditableStateCache
        ∨ t3.EditableStateCache = t.ComputeEditableState) :
    ∀ z t t1, w.get? z = some t → (w3.setEditGuard x false).get? z = some t1 →
      t1.EditableStateCache = t.EditableStateCache
        ∨ t1.EditableStateCache = t.ComputeEditableState := by
  intro z t t1 hz h1
  rw [World.setEditGuard, get?_modify] at h1
  by_cases hxz : x = z
  · subst hxz
    rw [hs] at hz
    cases hz
    rw [if_pos rfl] at h1
    cases h3 : w3.get? x with
    | none => rw [h3] at h1; simp at h1
    | some t3 =>
      rw [h3] at h1
      simp at h1
      subst h1
      have h2 : (((w.setEditGuard x true).log es).setCache x s.ComputeEditableState).get? x
          = some { s with bOnEditConditionsChangedEventGuard := true,
                          EditableStateCache := s.ComputeEditableState } := by
        simp [World.setCache, World.setEditGuard, hs]
      rcases hc x _ t3 h2 h3 with a | a
      · exact Or.inr a
      · exact Or.inr a
  · rw [if_neg hxz] at h1
    have h2 : (((w.setEditGuard x true).log es).setCache x s.ComputeEditableState).get? z
        = some t := by
      simp [World.setCache, World.setEditGuard, get?_modify_other _ _ hxz, hz]
    exact hc z t t1 h2 h1

theorem settled_refresh_step (f : Nat) (hE : SettledEdit σ f) : SettledRefresh σ (f + 1) := by
  intro w x b w1 hw h
  cases hs : w.get? x with
  | none =>
    simp [RefreshEditableState, hs] at h
    subst h
    exact ⟨[], Settled.unchanged w, rfl⟩
  | some s =>
    cases hl : s.LocalPlayer with
    | none =>
      simp [RefreshEditableState, hs, hl] at h
      subst h
      exact ⟨[], Settled.unchanged w, rfl⟩
    | some p =>
      cases hg : s.bOnEditConditionsChangedEventGuard with
      | true =>
        simp [RefreshEditableState, hs, hl, hg] at h
        subst h
        exact ⟨[], Settled.unchanged w, rfl⟩
      | false =>
        have hs1 : (w.setEditGuard x true).get? x
            = some { s with bOnEditConditionsChangedEventGuard := true } := by
          simp [World.setEditGuard, hs]
        have hc : ComputeEditableState (w.setEditGuard x true) x
            = (s.ComputeEditableState,
                (w.setEditGuard x true).log [Event.ComputeEditableState x]) := by
          simp [ComputeEditableState, hs1]
          rfl
        have hsh2 : (((w.setEditGuard x true).log [Event.ComputeEditableState x]).setCache x
            s.ComputeEditableState).shape = (w.setEditGuard x true).shape := shape_setCache _ x _
        cases b with
        | false =>
          simp only [RefreshEditableState, hs, hl, hg, hc] at h
          cases h
          refine ⟨[Event.ComputeEditableState x], ⟨?_, rfl, ?_⟩, rfl⟩
          · exact shape_restore_edit w _ x s hs hg hsh2
          · exact cache_refresh w _ x s _ hs (Settled.unchanged _).cache
        | true =>
          simp only [RefreshEditableState, hs, hl, hg, hc] at h
          cases hn : NotifyEditConditionsChanged f
            (((w.setEditGuard x true).log [Event.ComputeEditableState x]).setCache x
              s.ComputeEditableState) x with
          | none => rw [hn] at h; cases h
          | some w3 =>
            rw [hn] at h
            cases h
            have hw2 : Wired (((w.setEditGuard x true).log [Event.ComputeEditableState x]).setCache
                x s.ComputeEditableState) :=
              Wired.by_shape hsh2 (Wired.modify hw x
                (fun t => { t with bOnEditConditionsChangedEventGuard := true })
                (fun _ => rfl) (fun _ => rfl))
            obtain ⟨d3, h3, e3⟩ := hE _ x w3 hw2 hn
            refine ⟨[Event.ComputeEditableState x] ++ d3, ⟨?_, ?_, ?_⟩, ?_⟩
            · exact shape_restore_edit w w3 x s hs hg (h3.shape.trans hsh2)
            · show w3.trace = _
              rw [h3.trace]
              simp [World.log, World.setCache, World.setEditGuard, World.modify]
            · exact cache_refresh w w3 x s _ hs h3.cache
            · simp [List.filter_append, e3, Event.isChanged]

theorem settled_edit_step (f : Nat) (hI : SettledInvoke σ f) : SettledEdit σ (f + 1) := by
  intro w x w1 hw h
  cases hs : w.get? x with
  | none =>
    simp [NotifyEditConditionsChanged, hs] at h
    subst h
    exact ⟨[], Settled.unchanged w, rfl⟩
  | some s =>
    simp only [NotifyEditConditionsChanged, hs] at h
    cases hfe : forEach (fun v l => InvokeListener f v l x none)
        s.OnSettingEditConditionChangedEvent
        (((w.log [Event.OnEditConditionsChanged x]).log
          [Event.BroadcastEditConditionChanged x]).enterBroadcast) with
    | none => rw [hfe] at h; cases h
    | some w3 =>
      rw [hfe] at h
      cases h
      obtain ⟨d3, h3, e3⟩ := forEach_filter (fun v l => InvokeListener f v l x none)
        Event.isChanged (fun _ => []) s.OnSettingEditConditionChangedEvent
        (((w.log [Event.OnEditConditionsChanged x]).log
          [Event.BroadcastEditConditionChanged x]).enterBroadcast) _ [] w3 (Settled.unchanged _)
        (by
          intro v l v1 dv hl hv hfv
          obtain ⟨z, rfl⟩ := (hw x s hs).2 l hl
          have hwv : Wired v := Wired.by_shape hv.shape hw
          obtain ⟨d, k1, k2⟩ := hI v z x none v1 hwv (Or.inl rfl) hfv
          exact ⟨_, k1, by simp [List.filter_cons, Event.isChanged, k2]⟩) hfe
      have hnil : ((s.OnSettingEditConditionChangedEvent.map fun _ => ([] : List Event)).flatten)
          = [] := by
        generalize s.OnSettingEditConditionChangedEvent = l
        induction l with
        | nil => rfl
        | cons a rest ih => simp
      rw [hnil] at e3
      refine ⟨[Event.OnEditConditionsChanged x, Event.BroadcastEditConditionChanged x] ++ d3,
        ⟨h3.shape, ?_, h3.cache⟩, ?_⟩
      · show w3.trace = _
        rw [h3.trace]
        simp [World.log, World.enterBroadcast]
      · simp [List.filter_append, e3, Event.isChanged, List.filter_cons]

theorem settled_handle_step (f : Nat) (hR : SettledRefresh σ f) : SettledHandle σ (f + 1) := by
  intro w x dep R w1 hw hRq h
  cases hs : w.get? x with
  | none =>
    simp [HandleEditDependencyChanged, hs] at h
    subst h
    exact ⟨[], Settled.unchanged w, rfl⟩
  | some s =>
    simp only [HandleEditDependencyChanged, hs] at h
    cases hr : RefreshEditableState f (w.log [Event.OnDependencyChanged x]) x true with
    | none => rw [hr] at h; cases h
    | some w2 =>
      rw [hr] at h
      have hw2 : w1 = w2 := by
        rcases hRq with rfl | rfl
        · cases h; rfl
        · simp at h; exact h.symm
      subst hw2
      obtain ⟨d, k1, k2⟩ := hR (w.log [Event.OnDependencyChanged x]) x true w1 hw hr
      exact ⟨[Event.OnDependencyChanged x] ++ d, Settled.after_log k1, by
        simp [List.filter_append, k2, Event.isChanged, List.filter_cons]⟩

theorem settled_invoke_step (f : Nat) (hH : SettledHandle σ f) : SettledInvoke σ (f + 1) := by
  intro w z src R w1 hw hRq h
  simp only [InvokeListener] at h
  obtain ⟨d, k1, k2⟩ := hH (w.log [Event.Invoke src (Listener.editDependency z) R]) z src R w1
    hw hRq h
  exact ⟨d, Settled.after_log k1, k2⟩

theorem settled_ok : ∀ fuel : Nat,
    SettledRefresh σ fuel ∧ SettledEdit σ fuel ∧ SettledHandle σ fuel ∧ SettledInvoke σ fuel := by
  intro fuel
  induction fuel with
  | zero =>
    refine ⟨?_, ?_, ?_, ?_⟩
    · intro w x b w1 _ h; simp [RefreshEditableState] at h
    · intro w x w1 _ h; simp [NotifyEditConditionsChanged] at h
    · intro w x dep R w1 _ _ h; simp [HandleEditDependencyChanged] at h
    · intro w z src R w1 _ _ h; simp [InvokeListener] at h
  | succ f ih =>
    obtain ⟨hR, hE, hH, hI⟩ := ih
    exact ⟨settled_refresh_step f hE, settled_edit_step f hI, settled_handle_step f hR,
      settled_invoke_step f hH⟩

theorem forEach_event {α : Type} (f : World σ → α → Option (World σ)) (l : List α)
    (w0 : World σ) (e : Event) (a : α) :
    ∀ (v0 : World σ) (d0 : List Event) (w1 : World σ), Settled w0 v0 d0 → a ∈ l →
      (∀ v a' v1 dv, a' ∈ l → Settled w0 v dv → f v a' = some v1 → ∃ d, Settled v v1 d) →
      (∀ v v1 dv, Settled w0 v dv → f v a = some v1 → ∃ d, v1.trace = v.trace ++ d ∧ e ∈ d) →
      forEach f l v0 = some w1 → ∃ d, w1.trace = v0.trace ++ d ∧ e ∈ d := by
  induction l with
  | nil => intro v0 d0 w1 _ ha; cases ha
  | cons a' rest ih =>
    intro v0 d0 w1 h0 ha hstep hhit h
    cases hf : f v0 a' with
    | none => simp [forEach, hf] at h
    | some v1 =>
      simp only [forEach, hf] at h
      obtain ⟨d1, s1⟩ := hstep v0 a' v1 d0 (List.mem_cons_self a' rest) h0 hf
      have hrest : ∀ v a'' v1' dv, a'' ∈ rest → Settled w0 v dv → f v a'' = some v1' →
          ∃ d, Settled v v1' d :=
        fun v a'' v1' dv h1 h2 h3 => hstep v a'' v1' dv (List.mem_cons_of_mem a' h1) h2 h3
      by_cases haa : a = a'
      · subst haa
        obtain ⟨d, hd, he⟩ := hhit v0 v1 d0 h0 hf
        obtain ⟨d2, s2, _⟩ := forEach_filter f (fun _ => false) (fun _ => []) rest w0 v1
          (d0 ++ d1) w1 (h0.join s1)
          (fun v a'' v1' dv h1 h2 h3 => by
            obtain ⟨dd, hdd⟩ := hrest v a'' v1' dv h1 h2 h3
            exact ⟨dd, hdd, by simp⟩) h
        exact ⟨d ++ d2, by rw [s2.trace, hd, List.append_assoc], by simp [he]⟩
      · have hmem : a ∈ rest := by
          rcases List.mem_cons.1 ha with h1 | h1
          · exact absurd h1 haa
          · exact h1
        obtain ⟨d, hd, he⟩ := ih v1 (d0 ++ d1) w1 (h0.join s1) hmem hrest hhit h
        exact ⟨d1 ++ d, by rw [hd, s1.trace, List.append_assoc], by simp [he]⟩

theorem handle_logs (fuel : Nat) (w w1 : World σ) (x dep : Nat) (s : UGameSetting σ)
    (R : Option EGameSettingChangeReason) (hw : Wired w)
    (hRq : R = none ∨ R = some EGameSettingChangeReason.DependencyChanged)
    (hs : w.get? x = some s) (h : HandleEditDependencyChanged fuel w x dep R = some w1) :
    ∃ d, w1.trace = w.trace ++ Event.OnDependencyChanged x :: d := by
  cases fuel with
  | zero => simp [HandleEditDependencyChanged] at h
  | succ f =>
    simp only [HandleEditDependencyChanged, hs] at h
    cases hr : RefreshEditableState f (w.log [Event.OnDependencyChanged x]) x true with
    | none => rw [hr] at h; cases h
    | some w2 =>
      rw [hr] at h
      have hw2 : w1 = w2 := by
        rcases hRq with rfl | rfl
        · cases h; rfl
        · simp at h; exact h.symm
      subst hw2
      obtain ⟨d, k1, _⟩ := (settled_ok f).1 (w.log [Event.OnDependencyChanged x]) x true w1 hw hr
      exact ⟨d, by rw [k1.trace]; simp [World.log]⟩

theorem invoke_logs (fuel : Nat) (w w1 : World σ) (z src : Nat) (s : UGameSetting σ)
    (R : Option EGameSettingChangeReason) (hw : Wired w)
    (hRq : R = none ∨ R = some EGameSettingChangeReason.DependencyChanged)
    (hs : w.get? z = some s)
    (h : InvokeListener fuel w (Listener.editDependency z) src R = some w1) :
    ∃ d, w1.trace = w.trace ++ d ∧ Event.OnDependencyChanged z ∈ d := by
  cases fuel with
  | zero => simp [InvokeListener] at h
  | succ f =>
    simp only [InvokeListener] at h
    obtain ⟨d, hd⟩ := handle_logs f (w.log [Event.Invoke src (Listener.editDependency z) R]) w1
      z src s R hw hRq hs h
    exact ⟨Event.Invoke src (Listener.editDependency z) R :: Event.OnDependencyChanged z :: d,
      by rw [hd]; simp [World.log], by simp⟩

theorem refresh_sets (f : Nat) (w w1 : World σ) (x p : Nat) (s : UGameSetting σ) (hw : Wired w)
    (hs : w.get? x = some s) (hl : s.LocalPlayer = some p)
    (hg : s.bOnEditConditionsChangedEventGuard = false)
    (h : RefreshEditableState f w x true = some w1) :
    ∃ d t1, w1.trace = w.trace ++ Event.ComputeEditableState x :: d
      ∧ w1.get? x = some t1 ∧ t1.EditableStateCache = s.ComputeEditableState := by
  cases f with
  | zero => simp [RefreshEditableState] at h
  | succ f =>
    have hs1 : (w.setEditGuard x true).get? x
        = some { s with bOnEditConditionsChangedEventGuard := true } := by
      simp [World.setEditGuard, hs]
    have hc : ComputeEditableState (w.setEditGuard x true) x
        = (s.ComputeEditableState,
            (w.setEditGuard x true).log [Event.ComputeEditableState x]) := by
      simp [ComputeEditableState, hs1]
      rfl
    have hsh2 : (((w.setEditGuard x true).log [Event.ComputeEditableState x]).setCache x
        s.ComputeEditableState).shape = (w.setEditGuard x true).shape := shape_setCache _ x _
    simp only [RefreshEditableState, hs, hl, hg, hc] at h
    cases hn : NotifyEditConditionsChanged f
      (((w.setEditGuard x true).log [Event.ComputeEditableState x]).setCache x
        s.ComputeEditableState) x with
    | none => rw [hn] at h; cases h
    | some w3 =>
      rw [hn] at h
      cases h
      have hw2 : Wired (((w.setEditGuard x true).log [Event.ComputeEditableState x]).setCache
          x s.ComputeEditableState) :=
        Wired.by_shape hsh2 (Wired.modify hw x
          (fun t => { t with bOnEditConditionsChangedEventGuard := true })
          (fun _ => rfl) (fun _ => rfl))
      obtain ⟨d3, h3, _⟩ := (settled_ok f).2.1 _ x w3 hw2 hn
      have h2 : (((w.setEditGuard x true).log [Event.ComputeEditableState x]).setCache x
          s.ComputeEditableState).get? x
          = some { s with bOnEditConditionsChangedEventGuard := true,
                          EditableStateCache := s.ComputeEditableState } := by
        simp [World.setCache, World.setEditGuard, hs]
      obtain ⟨t3, ht3, _⟩ := shape_get _ w3 h3.shape x _ h2
      refine ⟨d3, { t3 with bOnEditConditionsChangedEventGuard := false }, ?_, ?_, ?_⟩
      · show w3.trace = _
        rw [h3.trace]
        simp [World.log, World.setCache, World.setEditGuard, World.modify]
      · simp [World.setEditGuard, ht3]
      · rcases h3.cache x _ t3 h2 ht3 with a | a
        · exact a
        · exact a

omit [Inhabited σ] in
theorem filter_isChanged_conditionEvents (p : Option Nat) (x : Nat) (r : EGameSettingChangeReason)
    (cs : List (FGameSettingEditCondition σ)) :
    (Event.OnSettingChanged x r :: cs.map fun c => Event.ConditionSettingChanged c.Id p x r).filter
      Event.isChanged = [] := by
  induction cs with
  | nil => rfl
  | cons c rest ih => simp_all [Event.isChanged, List.filter_cons]

theorem flatten_singletons {α β : Type} (g : α → β) (l : List α) :
    (l.map fun a => [g a]).flatten = l.map g := by
  induction l with
  | nil => rfl
  | cons a rest ih => simp_all

theorem cache_guard (w w4 w5 : World σ) (x : Nat) (g1 g2 : UGameSetting σ → UGameSetting σ)
    (h4 : ∀ z, w4.get? z = (w.modify x g1).get? z)
    (hg1 : ∀ t, (g1 t).EditableStateCache = t.EditableStateCache
      ∧ (g1 t).ComputeEditableState = t.ComputeEditableState)
    (hg2 : ∀ t, (g2 t).EditableStateCache = t.EditableStateCache)
    (hc : ∀ z t t5, w4.get? z = some t → w5.get? z = some t5 →
      t5.EditableStateCache = t.EditableStateCache
        ∨ t5.EditableStateCache = t.ComputeEditableState) :
    ∀ z t t1, w.get? z = some t → (w5.modify x g2).get? z = some t1 →
      t1.EditableStateCache = t.EditableStateCache
        ∨ t1.EditableStateCache = t.ComputeEditableState := by
  intro z t t1 hz h1
  have h4z := h4 z
  rw [get?_modify] at h1 h4z
  by_cases hxz : x = z
  · subst hxz
    rw [if_pos rfl, hz] at h4z
    rw [if_pos rfl] at h1
    cases h5 : w5.get? x with
    | none => rw [h5] at h1; simp at h1
    | some t5 =>
      rw [h5] at h1
      simp at h1
      subst h1
      have := hc x (g1 t) t5 (by rw [h4z]; rfl) h5
      rw [hg2, ← (hg1 t).1, ← (hg1 t).2]
      exact this
  · rw [if_neg hxz] at h1 h4z
    exact hc z t t1 (by rw [h4z, hz]) h1

theorem notify_dep (f : Nat) (w w1 : World σ) (y : Nat) (s : UGameSetting σ) (hw : Wired w)
    (hs : w.get? y = some s)
    (h : NotifySettingChanged f w y EGameSettingChangeReason.DependencyChanged = some w1) :
    ∃ d, Settled w w1 d
      ∧ d.filter Event.isChanged
        = (if s.bOnSettingChangedEventGuard = true then [] else
            Event.BroadcastSettingChanged y EGameSettingChangeReason.DependencyChanged
              :: s.OnSettingChangedEvent.map fun l =>
                Event.Invoke y l (some EGameSettingChangeReason.DependencyChanged))
      ∧ (s.bOnSettingChangedEventGuard = false →
          ∀ z t, Listener.editDependency z ∈ s.OnSettingChangedEvent → w.get? z = some t →
            Event.OnDependencyChanged z ∈ d) := by
  cases f with
  | zero => simp [NotifySettingChanged] at h
  | succ f =>
    generalize hes : (Event.OnSettingChanged y EGameSettingChangeReason.DependencyChanged ::
      s.EditConditions.map fun c => Event.ConditionSettingChanged c.Id s.LocalPlayer y
        EGameSettingChangeReason.DependencyChanged) = es
    have hes0 : es.filter Event.isChanged = [] := by
      rw [← hes]; exact filter_isChanged_conditionEvents _ _ _ _
    cases hg : s.bOnSettingChangedEventGuard with
    | true =>
      simp only [NotifySettingChanged, hs, hg, hes] at h
      cases h
      refine ⟨es, ⟨rfl, rfl, ?_⟩, by simp [hes0], fun h => by cases h⟩
      exact (Settled.unchanged w).cache
    | false =>
      simp only [NotifySettingChanged, hs, hg, hes] at h
      generalize hw3 : ((((w.log es).setChangedGuard y true).log
        [Event.BroadcastSettingChanged y EGameSettingChangeReason.DependencyChanged]).enterBroadcast)
        = w3 at h
      have h3get : ∀ z, w3.get? z
          = (w.modify y fun t => { t with bOnSettingChangedEventGuard := true }).get? z := by
        intro z; rw [← hw3]; rfl
      have hw3w : Wired w3 := by
        rw [← hw3]
        exact Wired.modify hw y (fun t => { t with bOnSettingChangedEventGuard := true })
          (fun _ => rfl) (fun _ => rfl)
      have h3shape : w3.shape = (w.setChangedGuard y true).shape := by rw [← hw3]; rfl
      have h3trace : w3.trace = w.trace ++ (es ++
          [Event.BroadcastSettingChanged y EGameSettingChangeReason.DependencyChanged]) := by
        rw [← hw3]
        simp [World.log, World.enterBroadcast, World.setChangedGuard, World.modify]
      cases hfe : forEach (fun v l => InvokeListener f v l y
          (some EGameSettingChangeReason.DependencyChanged)) s.OnSettingChangedEvent w3 with
      | none => rw [hfe] at h; cases h
      | some w5 =>
        rw [hfe] at h
        cases h
        have hstep : ∀ v l v1 dv, l ∈ s.OnSettingChangedEvent → Settled w3 v dv →
            InvokeListener f v l y (some EGameSettingChangeReason.DependencyChanged) = some v1 →
            ∃ d, Settled v v1 d ∧ d.filter Event.isChanged
              = [Event.Invoke y l (some EGameSettingChangeReason.DependencyChanged)] := by
          intro v l v1 dv hl hv hfv
          obtain ⟨z, rfl⟩ := (hw y s hs).1 l hl
          have hwv : Wired v := Wired.by_shape hv.shape hw3w
          obtain ⟨d, k1, k2⟩ := (settled_ok f).2.2.2 v z y _ v1 hwv (Or.inr rfl) hfv
          exact ⟨_, k1, by simp [List.filter_cons, Event.isChanged, k2]⟩
        obtain ⟨d5, h5, e5⟩ := forEach_filter _ Event.isChanged
          (fun l => [Event.Invoke y l (some EGameSettingChangeReason.DependencyChanged)])
          s.OnSettingChangedEvent w3 w3 [] w5 (Settled.unchanged _) hstep hfe
        rw [flatten_singletons] at e5
        refine ⟨(es ++ [Event.BroadcastSettingChanged y EGameSettingChangeReason.DependencyChanged])
          ++ d5, ⟨?_, ?_, ?_⟩, ?_, ?_⟩
        · exact shape_restore_changed w w5.leaveBroadcast y s hs hg (h5.shape.trans h3shape)
        · show w5.trace = _
          rw [h5.trace, h3trace]
          simp
        · exact cache_guard w w3 w5.leaveBroadcast y
            (fun t => { t with bOnSettingChangedEventGuard := true })
            (fun t => { t with bOnSettingChangedEventGuard := false }) h3get
            (fun _ => ⟨rfl, rfl⟩) (fun _ => rfl) h5.cache
        · simp [List.filter_append, hes0, e5, Event.isChanged, List.filter_cons]
        · intro _ z t hz ht
          have h3z : ∃ t3, w3.get? z = some t3 := by
            rw [h3get, get?_modify]
            split
            · exact ⟨_, by rw [ht]; rfl⟩
            · exact ⟨t, ht⟩
          obtain ⟨d, hd, he⟩ := forEach_event _ s.OnSettingChangedEvent w3
            (Event.OnDependencyChanged z) (Listener.editDependency z) w3 [] w5 (Settled.unchanged _) hz
            (fun v l v1 dv hl hv hfv => by
              obtain ⟨d, k, _⟩ := hstep v l v1 dv hl hv hfv
              exact ⟨d, k⟩)
            (fun v v1 dv hv hfv => by
              obtain ⟨t3, ht3⟩ := h3z
              obtain ⟨tv, htv, _⟩ := shape_get w3 v hv.shape z t3 ht3
              exact invoke_logs f v v1 z y tv _ (Wired.by_shape hv.shape hw3w) (Or.inr rfl) htv
                hfv) hfe
          have hdd : d = d5 := by
            have := h5.trace
            rw [hd] at this
            exact List.append_cancel_left this
          subst hdd
          simp [he]

theorem handle_top (f : Nat) (w w1 : World σ) (z a : Nat) (t : UGameSetting σ)
    (r : EGameSettingChangeReason) (hw : Wired w)
    (hr : r ≠ EGameSettingChangeReason.DependencyChanged) (ht : w.get? z = some t)
    (h : HandleEditDependencyChanged f w z a (some r) = some w1) :
    ∃ d, Settled w w1 d
      ∧ d.filter Event.isChanged
        = (if t.bOnSettingChangedEventGuard = true then [] else
            Event.BroadcastSettingChanged z EGameSettingChangeReason.DependencyChanged
              :: t.OnSettingChangedEvent.map fun l =>
                Event.Invoke z l (some EGameSettingChangeReason.DependencyChanged))
      ∧ (∀ p, t.LocalPlayer = some p → t.bOnEditConditionsChangedEventGuard = false →
          Event.ComputeEditableState z ∈ d
          ∧ ∃ t1, w1.get? z = some t1 ∧ t1.EditableStateCache = t.ComputeEditableState)
      ∧ (t.bOnSettingChangedEventGuard = false →
          ∀ c tc, Listener.editDependency c ∈ t.OnSettingChangedEvent → w.get? c = some tc →
            Event.OnDependencyChanged c ∈ d) := by
  cases f with
  | zero => simp [HandleEditDependencyChanged] at h
  | succ f =>
    simp only [HandleEditDependencyChanged, ht, hr, ne_eq, not_false_eq_true, if_true] at h
    cases hrf : RefreshEditableState f (w.log [Event.OnDependencyChanged z]) z true with
    | none => rw [hrf] at h; cases h
    | some w2 =>
      rw [hrf] at h
      simp only at h
      obtain ⟨dR, kR, eR⟩ := (settled_ok f).1 (w.log [Event.OnDependencyChanged z]) z true w2 hw hrf
      have hw2 : Wired w2 := Wired.by_shape kR.shape hw
      obtain ⟨t2, ht2, hf2⟩ := shape_get (w.log [Event.OnDependencyChanged z]) w2 kR.shape z t ht
      have g2' := congrArg UGameSetting.bOnSettingChangedEventGuard hf2
      have l2' := congrArg UGameSetting.OnSettingChangedEvent hf2
      have g2 : t2.bOnSettingChangedEventGuard = t.bOnSettingChangedEventGuard := g2'
      have l2 : t2.OnSettingChangedEvent = t.OnSettingChangedEvent := l2'
      obtain ⟨dN, kN, eN, mN⟩ := notify_dep f w2 w1 z t2 hw2 ht2 h
      rw [g2, l2] at eN
      refine ⟨([Event.OnDependencyChanged z] ++ dR) ++ dN, (Settled.after_log kR).join kN, ?_, ?_, ?_⟩
      · simp [List.filter_append, eR, eN, Event.isChanged, List.filter_cons]
      · intro p hl hg
        obtain ⟨d', t1', hd', ht1', hc1'⟩ := refresh_sets f (w.log [Event.OnDependencyChanged z])
          w2 z p t hw ht hl hg hrf
        have hdd : dR = Event.ComputeEditableState z :: d' := by
          have := kR.trace
          rw [hd'] at this
          exact (List.append_cancel_left this).symm
        refine ⟨by simp [hdd], ?_⟩
        obtain ⟨t1, ht1, hf1⟩ := shape_get w2 w1 kN.shape z t1' ht1'
        refine ⟨t1, ht1, ?_⟩
        have e2 : t2 = t1' := by
          rw [ht2] at ht1'
          exact Option.some.inj ht1'
        subst e2
        rcases kN.cache z t2 t1 ht2 ht1 with a | a
        · exact a.trans hc1'
        · exact a.trans (compute_forget t t2 hf2)
      · intro hg c tc hc htc
        obtain ⟨tc2, htc2, _⟩ := shape_get (w.log [Event.OnDependencyChanged z]) w2 kR.shape c tc htc
        have := mN (g2.trans hg) c tc2 (by rw [l2]; exact hc) htc2
        simp [this]

theorem invoke_other (f : Nat) (v v1 : World σ) (z a : Nat) (r : EGameSettingChangeReason)
    (p : Event → Bool)
    (hp : ∀ e, p e = true → Event.isChanged e = true ∧ Event.onChangedChannel z e = false
      ∧ Event.onChangedChannel a e = false)
    (hw : Wired v) (hr : r ≠ EGameSettingChangeReason.DependencyChanged)
    (h : InvokeListener f v (Listener.editDependency z) a (some r) = some v1) :
    ∃ d, Settled v v1 d ∧ d.filter p = [] := by
  cases f with
  | zero => simp [InvokeListener] at h
  | succ f =>
    simp only [InvokeListener] at h
    cases ht : v.get? z with
    | none =>
      cases f with
      | zero => simp [HandleEditDependencyChanged] at h
      | succ f =>
        have ht' : (v.log [Event.Invoke a (Listener.editDependency z) (some r)]).get? z = none := ht
        simp only [HandleEditDependencyChanged, ht'] at h
        cases h
        refine ⟨[Event.Invoke a (Listener.editDependency z) (some r)],
          Settled.after_log (d := []) (Settled.unchanged _), ?_⟩
        rw [List.filter_eq_nil_iff]
        intro e he hpe
        simp at he
        subst he
        have := (hp _ hpe).2.2
        simp [Event.onChangedChannel] at this
    | some t =>
      obtain ⟨d, k, e, _⟩ := handle_top f (v.log [Event.Invoke a (Listener.editDependency z) (some r)])
        v1 z a t r hw hr ht h
      refine ⟨[Event.Invoke a (Listener.editDependency z) (some r)] ++ d, Settled.after_log k, ?_⟩
      rw [List.filter_eq_nil_iff]
      intro x hx hpx
      obtain ⟨h1, h2, h3⟩ := hp x hpx
      rcases List.mem_append.1 hx with hx | hx
      · simp at hx
        subst hx
        simp [Event.onChangedChannel] at h3
      · have hm : x ∈ d.filter Event.isChanged := List.mem_filter.2 ⟨hx, h1⟩
        rw [e] at hm
        split at hm
        · cases hm
        · simp at hm
          rcases hm with rfl | ⟨l, _, rfl⟩ <;> simp [Event.onChangedChannel] at h2

omit [Inhabited σ] in
theorem Wired.add {w : World σ} (hw : Wired w) (x y : Nat) : Wired (AddEditDependency w x y) := by
  unfold AddEditDependency
  cases hy : w.get? y with
  | none => exact hw
  | some t =>
    intro i s hs
    simp only at hs
    rw [get?_modify] at hs
    split at hs
    · rename_i hyi
      subst hyi
      rw [hy] at hs
      simp at hs
      subst hs
      obtain ⟨h1, h2⟩ := hw y t hy
      constructor
      · intro l hl
        simp at hl
        rcases hl with hl | rfl
        · exact h1 l hl
        · exact ⟨x, rfl⟩
      · intro l hl
        simp at hl
        rcases hl with hl | rfl
        · exact h2 l hl
        · exact ⟨x, rfl⟩
    · exact hw i s hs

theorem onChanged_isChanged (y : Nat) (e : Event) (h : Event.onChangedChannel y e = true) :
    Event.isChanged e = true := by
  cases e <;> simp [Event.onChangedChannel] at h <;> try rfl
  rename_i src l R
  cases R with
  | none => simp [Event.onChangedChannel] at h
  | some r => rfl

theorem onChanged_unique (y z : Nat) (e : Event) (h : Event.onChangedChannel y e = true)
    (hyz : y ≠ z) : Event.onChangedChannel z e = false := by
  cases e <;> simp [Event.onChangedChannel] at h ⊢
  · subst h; exact hyz
  · rename_i src l R
    cases R with
    | none => simp [Event.onChangedChannel] at h
    | some r =>
      simp [Event.onChangedChannel] at h ⊢
      subst h; exact hyz

theorem filter_through (p q : Event → Bool) (hpq : ∀ e, q e = true → p e = true)
    (d : List Event) : d.filter q = (d.filter p).filter q := by
  rw [List.filter_filter]
  apply List.filter_congr
  intro e _
  cases hq : q e with
  | false => simp
  | true => simp [hpq e hq]

omit [Inhabited σ] in
theorem Wired.of_check (w : World σ) (h : w.wired = true) : Wired w := by
  intro i s hs
  have hmem : s ∈ w.settings := List.getElem?_mem hs
  have := (List.all_eq_true.1 h) s hmem
  simp only [Bool.and_eq_true, List.all_eq_true] at this
  constructor
  · intro l hl
    have := this.1 l hl
    cases l with
    | editDependency z => exact ⟨z, rfl⟩
    | external t b => cases this
  · intro l hl
    have := this.2 l hl
    cases l with
    | editDependency z => exact ⟨z, rfl⟩
    | external t b => cases this

end Dep

/-! ## Initialization returns, and what it preserves -/

section Init

variable [Inhabited σ]

omit [Inhabited σ] in
theorem forEach_rel {α : Type} (f : World σ → α → Option (World σ))
    (R : World σ → World σ → List Event → Prop) (Inv : World σ → Prop)
    (hrefl : ∀ w, R w w [])
    (htrans : ∀ w w1 w2 d1 d2, R w w1 d1 → R w1 w2 d2 → R w w2 (d1 ++ d2))
    (hinv : ∀ v v1 d, Inv v → R v v1 d → Inv v1) (l : List α) :
    ∀ w0 : World σ, Inv w0 →
      (∀ v a, a ∈ l → Inv v → ∃ v1 d, f v a = some v1 ∧ R v v1 d) →
      ∃ w1 d, forEach f l w0 = some w1 ∧ R w0 w1 d ∧ Inv w1 := by
  induction l with
  | nil => intro w0 h0 _; exact ⟨w0, [], rfl, hrefl w0, h0⟩
  | cons a rest ih =>
    intro w0 h0 hstep
    obtain ⟨v1, d1, hf, hr⟩ := hstep w0 a (List.mem_cons_self a rest) h0
    obtain ⟨w1, d, hfe, hr1, hi1⟩ := ih v1 (hinv _ _ _ h0 hr)
      (fun v a' ha' hv => hstep v a' (List.mem_cons_of_mem a ha') hv)
    exact ⟨w1, d1 ++ d, by simp [forEach, hf, hfe], htrans _ _ _ _ _ hr hr1, hi1⟩

omit [Inhabited σ] in
theorem ReadyStep.idle (y : Nat) (t : UGameSetting σ) : ReadyStep y t t [] :=
  ⟨fun h => ⟨h, rfl⟩, by simp⟩

omit [Inhabited σ] in
theorem ReadyStep.chain {y : Nat} {t t1 t2 : UGameSetting σ} {d1 d2 : List Event}
    (h1 : ReadyStep y t t1 d1) (h2 : ReadyStep y t1 t2 d2) : ReadyStep y t t2 (d1 ++ d2) := by
  refine ⟨fun h => ?_, ?_⟩
  · obtain ⟨a, b⟩ := h1.ready h
    obtain ⟨c, e⟩ := h2.ready a
    exact ⟨c, e.trans b⟩
  · have a := h1.once
    have b := h2.once
    rw [List.count_append]
    omega

omit [Inhabited σ] in
theorem ReadyRel.still (w : World σ) : ReadyRel w w [] :=
  ⟨by simp, rfl, fun y t h => ⟨t, h, ReadyStep.idle y t⟩⟩

omit [Inhabited σ] in
theorem ReadyRel.follow {w w1 w2 : World σ} {d1 d2 : List Event}
    (h1 : ReadyRel w w1 d1) (h2 : ReadyRel w1 w2 d2) : ReadyRel w w2 (d1 ++ d2) := by
  refine ⟨by rw [h2.trace, h1.trace, List.append_assoc], h2.length.trans h1.length, ?_⟩
  intro y t ht
  obtain ⟨t1, ht1, s1⟩ := h1.frame y t ht
  obtain ⟨t2, ht2, s2⟩ := h2.frame y t1 ht1
  exact ⟨t2, ht2, s1.chain s2⟩

omit [Inhabited σ] in
theorem InitRel.noop (S : Option Nat) (w : World σ) : InitRel S w w [] :=
  ⟨by simp, rfl, fun y t h => ⟨t, h, fun _ => ⟨rfl, rfl, rfl⟩, Or.inl rfl, ReadyStep.idle y t⟩⟩

omit [Inhabited σ] in
theorem InitRel.compose {S : Option Nat} {w w1 w2 : World σ} {d1 d2 : List Event}
    (h1 : InitRel S w w1 d1) (h2 : InitRel S w1 w2 d2) : InitRel S w w2 (d1 ++ d2) := by
  refine ⟨by rw [h2.trace, h1.trace, List.append_assoc], h2.length.trans h1.length, ?_⟩
  intro y t ht
  obtain ⟨t1, ht1, a1, b1, s1⟩ := h1.frame y t ht
  obtain ⟨t2, ht2, a2, b2, s2⟩ := h2.frame y t1 ht1
  refine ⟨t2, ht2, ?_, ?_, s1.chain s2⟩
  · intro hS
    obtain ⟨e1, c1, c1'⟩ := a1 hS
    subst e1
    obtain ⟨e2, c2, c2'⟩ := a2 hS
    exact ⟨e2, by rw [List.count_append, c1, c2], by rw [List.count_append, c1', c2']⟩
  · rcases b2 with h | h
    · rcases b1 with h' | h'
      · exact Or.inl (h.trans h')
      · exact Or.inr (h.trans h')
    · exact Or.inr h

omit [Inhabited σ] in
theorem InitRel.ready {S : Option Nat} {w w1 : World σ} {d : List Event} (h : InitRel S w w1 d) :
    ReadyRel w w1 d :=
  ⟨h.trace, h.length, fun y t ht => by
    obtain ⟨t1, ht1, _, _, s1⟩ := h.frame y t ht
    exact ⟨t1, ht1, s1⟩⟩

theorem sum_map_le {α : Type} (g : α → Nat) :
    ∀ (l l1 : List α), l1.length = l.length →
      (∀ (i : Nat) a a1, l[i]? = some a → l1[i]? = some a1 → g a1 ≤ g a) →
      (l1.map g).sum ≤ (l.map g).sum := by
  intro l
  induction l with
  | nil =>
    intro l1 hlen _
    cases l1 with
    | nil => simp
    | cons b rest => simp at hlen
  | cons a rest ih =>
    intro l1 hlen h
    cases l1 with
    | nil => simp at hlen
    | cons b rest1 =>
      have h0 := h 0 a b (by simp) (by simp)
      have hr := ih rest1 (by simpa using hlen) (fun i x y hx hy => h (i + 1) x y (by simpa using hx)
        (by simpa using hy))
      simp only [List.map_cons, List.sum_cons]
      omega

omit [Inhabited σ] in
theorem pending_le (S : Option Nat) {w w1 : World σ} {d : List Event} (h : InitRel S w w1 d) :
    pending S w1.settings ≤ pending S w.settings := by
  apply sum_map_le _ w.settings w1.settings h.length
  intro i a a1 ha ha1
  obtain ⟨t1, ht1, _, b, _⟩ := h.frame i a ha
  have e : a1 = t1 := by
    have : w1.get? i = some a1 := ha1
    rw [ht1] at this
    exact (Option.some.inj this).symm
  subst e
  rcases b with b | b
  · rw [b]
  · simp [b]

omit [Inhabited σ] in
theorem pending_set (S : Option Nat) (w : World σ) (x : Nat) (s : UGameSetting σ)
    (hs : w.get? x = some s) (hne : s.LocalPlayer ≠ S) :
    pending S (w.modify x fun t => { t with LocalPlayer := S }).settings + 1
      = pending S w.settings := by
  have := sum_map_modify (fun s : UGameSetting σ => if s.LocalPlayer = S then 0 else 1)
    (fun t : UGameSetting σ => { t with LocalPlayer := S }) w.settings x s hs
  beta_reduce at this
  simp only [hne, if_false, if_true] at this
  simp only [pending, World.modify]
  omega

omit [Inhabited σ] in
theorem pending_le_length (S : Option Nat) (l : List (UGameSetting σ)) :
    pending S l ≤ l.length := by
  induction l with
  | nil => simp [pending]
  | cons a rest ih =>
    simp only [pending, List.map_cons, List.sum_cons, List.length_cons] at ih ⊢
    split <;> omega

theorem Startup_spec (v : World σ) (x : Nat) (t : UGameSetting σ) (hv : v.get? x = some t) :
    ∃ d, (Startup v x).trace = v.trace ++ d
      ∧ d.count (Event.Startup x) = 1 ∧ d.count (Event.StartupComplete x) = 1
      ∧ d.count (Event.OnInitialized x) = (if t.bReady then 0 else 1)
      ∧ (∀ y, y ≠ x → (Startup v x).get? y = v.get? y ∧ d.count (Event.Startup y) = 0
          ∧ d.count (Event.StartupComplete y) = 0 ∧ d.count (Event.OnInitialized y) = 0)
      ∧ (Startup v x).get? x = some (if t.bReady then t else
          { t with bReady := true
                   EditableStateCache := UGameSetting.ComputeEditableState { t with bReady := true } })
      ∧ (Startup v x).settings.length = v.settings.length := by
  cases hr : t.bReady with
  | true =>
    refine ⟨[Event.Startup x, Event.StartupComplete x,
      Event.ensureFailed x "StartupComplete called twice."], ?_, ?_, ?_, ?_, ?_, ?_, ?_⟩
    all_goals simp [Startup, StartupComplete, hv, hr]
    intro y hy
    have hxy : ¬ x = y := fun h => hy h.symm
    simp [List.count_cons, hxy]
  | false =>
    refine ⟨[Event.Startup x, Event.StartupComplete x, Event.OnInitialized x,
      Event.ComputeEditableState x], ?_, ?_, ?_, ?_, ?_, ?_, ?_⟩
    all_goals simp [Startup, StartupComplete, OnInitialized, ComputeEditableState, hv, hr,
      World.setCache]
    intro y hy
    have hxy : ¬ x = y := fun h => hy h.symm
    simp [List.count_cons, hxy]

omit [Inhabited σ] in
theorem count_preamble (x : Nat) (s : UGameSetting σ) (S : Option Nat) (e : Event)
    (he : ∀ i m, e ≠ Event.ensureFailed i m) (he' : ∀ i p, e ≠ Event.ConditionInitialize i p) :
    (ensureIdentity x s ++ s.EditConditions.map fun c => Event.ConditionInitialize c.Id S).count e
      = 0 := by
  rw [List.count_eq_zero]
  intro hmem
  simp only [ensureIdentity, List.mem_append, List.mem_map] at hmem
  rcases hmem with (h | h) | ⟨c, _, h⟩
  · split at h
    · simp at h; exact he _ _ h
    · simp at h
  · split at h
    · simp at h; exact he _ _ h
    · simp at h
  · exact he' _ _ h.symm

theorem Initialize_enter (f : Nat) (hI : InitOK σ f) (w : World σ) (x : Nat) (s : UGameSetting σ)
    (S : Option Nat) (hs : w.get? x = some s) (hne : s.LocalPlayer ≠ S)
    (hfuel : pending S w.settings < f + 1) :
    ∃ w1 delta t1, Initialize (f + 1) w x S = some w1 ∧ InitRel S w w1 delta
      ∧ delta.count (Event.Startup x) = 1 ∧ delta.count (Event.StartupComplete x) = 1
      ∧ w1.get? x = some t1 ∧ t1.LocalPlayer = S ∧ t1.bReady = true
      ∧ t1.EditConditions = s.EditConditions
      ∧ (s.bReady = false →
          t1.EditableStateCache = UGameSetting.ComputeEditableState t1
          ∧ delta.count (Event.OnInitialized x) = 1) := by
  generalize hd0 : (ensureIdentity x s ++ s.EditConditions.map fun c =>
    Event.ConditionInitialize c.Id S) = d0
  have c0 : ∀ e : Event, (∀ i m, e ≠ Event.ensureFailed i m) →
      (∀ i p, e ≠ Event.ConditionInitialize i p) → d0.count e = 0 := by
    intro e h1 h2
    rw [← hd0]
    exact count_preamble x s S e h1 h2
  have c0S : ∀ y, d0.count (Event.Startup y) = 0 :=
    fun y => c0 _ (fun _ _ h => by cases h) (fun _ _ h => by cases h)
  have c0C : ∀ y, d0.count (Event.StartupComplete y) = 0 :=
    fun y => c0 _ (fun _ _ h => by cases h) (fun _ _ h => by cases h)
  have c0I : ∀ y, d0.count (Event.OnInitialized y) = 0 :=
    fun y => c0 _ (fun _ _ h => by cases h) (fun _ _ h => by cases h)
  have hpend := pending_set S w x s hs hne
  -- the world in which the children are initialized
  have hw4 : ((w.modify x fun t => { t with LocalPlayer := S }).log (ensureIdentity x s)).log
      (s.EditConditions.map fun c => Event.ConditionInitialize c.Id S)
      = (w.modify x fun t => { t with LocalPlayer := S }).log d0 := by
    simp [World.log, ← hd0]
  obtain ⟨w5, d5, hfe, hr5, hx5, hp5⟩ := forEach_rel
    (fun v Setting => Initialize f v Setting (v.LocalPlayer x))
    (InitRel S)
    (fun v => v.get? x = some { s with LocalPlayer := S } ∧ pending S v.settings < f)
    (InitRel.noop S) (fun _ _ _ _ _ => InitRel.compose)
    (by
      intro v v1 d ⟨hv, hp⟩ hr
      obtain ⟨t1, ht1, a, _, _⟩ := hr.frame x _ hv
      have := (a rfl).1
      subst this
      exact ⟨ht1, lt_of_le_of_lt (pending_le S hr) hp⟩)
    s.ChildSettings ((w.modify x fun t => { t with LocalPlayer := S }).log d0)
    ⟨by simp [hs], by
      show pending S (w.modify x fun t => { t with LocalPlayer := S }).settings < f
      omega⟩
    (by
      intro v child _ ⟨hv, hp⟩
      have hlp : v.LocalPlayer x = S := by simp [World.LocalPlayer, hv]
      simp only [hlp]
      exact hI v child S hp)
  obtain ⟨dS, hSt, hS1, hS2, hS3, hSy, hSx, hSl⟩ := Startup_spec w5 x _ hx5
  obtain ⟨t5, ht5, a5, _, r5⟩ := hr5.frame x { s with LocalPlayer := S } (by simp [hs])
  have e5 : t5 = { s with LocalPlayer := S } := by
    rw [hx5] at ht5
    exact (Option.some.inj ht5).symm
  subst e5
  obtain ⟨_, k1, k2⟩ := a5 rfl
  have k3 : d5.count (Event.OnInitialized x) = 0 := by
    have := r5.once
    omega
  have hrel : InitRel S w (Startup w5 x) ((d0 ++ d5) ++ dS) := by
    refine ⟨?_, ?_, ?_⟩
    · rw [hSt, hr5.trace]
      simp [World.log]
    · rw [hSl, hr5.length]
      simp
    · intro y t ht
      by_cases hy : y = x
      · subst hy
        rw [hs] at ht
        cases ht
        refine ⟨_, hSx, fun h => absurd h hne, ?_, ?_, ?_⟩
        · right
          split <;> rfl
        · intro hrd
          simp [hrd]
        · simp only [List.count_append, c0I, k3, hS3]
          cases s.bReady <;> simp
      · have hxy : x ≠ y := fun h => hy h.symm
        obtain ⟨t1, ht1, a1, b1, r1⟩ := hr5.frame y t (by simpa [get?_modify_other _ _ hxy] using ht)
        obtain ⟨g1, g2, g3, g4⟩ := hSy y hy
        refine ⟨t1, by rw [g1]; exact ht1, ?_, b1, ?_, ?_⟩
        · intro hS
          obtain ⟨e1, e2, e3⟩ := a1 hS
          refine ⟨e1, ?_, ?_⟩
          · simp only [List.count_append, c0S, e2, g2]
          · simp only [List.count_append, c0C, e3, g3]
        · exact r1.ready
        · have := r1.once
          simp only [List.count_append, c0I, g4]
          omega
  refine ⟨Startup w5 x, (d0 ++ d5) ++ dS, _, ?_, hrel, ?_, ?_, hSx, ?_, ?_, ?_, ?_⟩
  · simp only [Initialize, hs, hne, if_false, hw4, hfe]
  · simp only [List.count_append, c0S, k1, hS1]
  · simp only [List.count_append, c0C, k2, hS2]
  · split <;> rfl
  · split
    · assumption
    · rfl
  · split <;> rfl
  · intro hrd
    simp only [List.count_append, c0I, k3, hS3, hrd]
    simp [UGameSetting.ComputeEditableState]

theorem init_ok : ∀ fuel : Nat, InitOK σ fuel := by
  intro fuel
  induction fuel with
  | zero => intro w x S h; omega
  | succ f ih =>
    intro w x S hfuel
    cases hs : w.get? x with
    | none => exact ⟨w, [], by simp [Initialize, hs], InitRel.noop S w⟩
    | some s =>
      by_cases he : s.LocalPlayer = S
      · exact ⟨w, [], by simp [Initialize, hs, he], InitRel.noop S w⟩
      · obtain ⟨w1, d, _, h1, h2, _⟩ := Initialize_enter f ih w x s S hs he hfuel
        exact ⟨w1, d, h1, h2⟩

/-- C1 (amended): `Initialize(S)` called twice in succession returns both times (with
more fuel than there are settings); `Startup` and `StartupComplete` run on the
setting once in total when its stored session differed from `S`, and not at all
when it was `S` already; and the second call returns the world the first one left,
trace included, so that it touches no edit condition, child or hook. -/
theorem Initialize_twice (w : World σ) (x : Nat) (s : UGameSetting σ) (S : Option Nat)
    (fuel : Nat) (hs : w.get? x = some s) (hfuel : w.settings.length < fuel) :
    ∃ w1 delta, Initialize fuel w x S = some w1
      ∧ Initialize fuel w1 x S = some w1
      ∧ w1.trace = w.trace ++ delta
      ∧ delta.count (Event.Startup x) = (if s.LocalPlayer = S then 0 else 1)
      ∧ delta.count (Event.StartupComplete x) = (if s.LocalPlayer = S then 0 else 1) := by
  obtain ⟨f, rfl⟩ : ∃ f, fuel = f + 1 := ⟨fuel - 1, by omega⟩
  by_cases he : s.LocalPlayer = S
  · have h1 : Initialize (f + 1) w x S = some w := by simp [Initialize, hs, he]
    exact ⟨w, [], h1, h1, by simp, by simp [he], by simp [he]⟩
  · have hp := pending_le_length S w.settings
    obtain ⟨w1, delta, t1, h1, h2, h3, h4, h5, h6, _⟩ :=
      Initialize_enter f (init_ok f) w x s S hs he (by omega)
    refine ⟨w1, delta, h1, ?_, h2.trace, by simp [he, h3], by simp [he, h4]⟩
    simp [Initialize, h5, h6]

/-- C8 (amended): when the setting is not ready and its stored session differs from
`S`, `Initialize(S)` returns (with more fuel than there are settings) and leaves the
stored session `S`, the ready flag true and the cache equal to the value of
`ComputeEditableState` in the world it returns, where the session is `S`;
`OnInitialized` has run once. -/
theorem Initialize_computes_state (w : World σ) (x : Nat) (s : UGameSetting σ) (S : Option Nat)
    (fuel : Nat) (hs : w.get? x = some s) (hne : s.LocalPlayer ≠ S) (hready : s.bReady = false)
    (hfuel : w.settings.length < fuel) :
    ∃ w1 delta t1, Initialize fuel w x S = some w1 ∧ w1.trace = w.trace ++ delta
      ∧ w1.get? x = some t1 ∧ t1.LocalPlayer = S ∧ t1.bReady = true
      ∧ t1.EditableStateCache = (ComputeEditableState w1 x).1
      ∧ delta.count (Event.OnInitialized x) = 1 := by
  obtain ⟨f, rfl⟩ : ∃ f, fuel = f + 1 := ⟨fuel - 1, by omega⟩
  have hp := pending_le_length S w.settings
  obtain ⟨w1, delta, t1, h1, h2, _, _, h5, h6, h7, _, h9⟩ :=
    Initialize_enter f (init_ok f) w x s S hs hne (by omega)
  obtain ⟨k1, k2⟩ := h9 hready
  refine ⟨w1, delta, t1, h1, h2.trace, h5, h6, h7, ?_, k2⟩
  simp [ComputeEditableState, h5, k1]

/-- C9: any sequence of `Initialize` calls, on any settings and with any sessions,
returns (with more fuel than there are settings); over the whole sequence
`OnInitialized` runs at most once on every setting, and not at all on a setting
that was ready; a ready setting stays ready and keeps its cache; and
`StartupComplete` on a ready setting changes no member of any setting. -/
theorem OnInitialized_at_most_once (w : World σ) (calls : List (Nat × Option Nat)) (fuel : Nat)
    (hfuel : w.settings.length < fuel) :
    (∃ w1 delta, InitializeAll fuel calls w = some w1 ∧ w1.trace = w.trace ++ delta
      ∧ ∀ y t, w.get? y = some t →
          delta.count (Event.OnInitialized y) ≤ 1
          ∧ ∃ t1, w1.get? y = some t1
            ∧ (t.bReady = true → t1.bReady = true
                ∧ t1.EditableStateCache = t.EditableStateCache
                ∧ delta.count (Event.OnInitialized y) = 0))
    ∧ (∀ (v : World σ) (y : Nat) (t : UGameSetting σ), v.get? y = some t → t.bReady = true →
        (StartupComplete v y).settings = v.settings) := by
  constructor
  · obtain ⟨w1, delta, h1, h2, _⟩ := forEach_rel
      (fun v (c : Nat × Option Nat) => Initialize fuel v c.1 c.2) ReadyRel
      (fun v => v.settings.length < fuel) ReadyRel.still (fun _ _ _ _ _ => ReadyRel.follow)
      (fun v v1 d hv hr => by
        show v1.settings.length < fuel
        rw [hr.length]; exact hv) calls w hfuel
      (by
        intro v c _ hv
        have hp := pending_le_length c.2 v.settings
        obtain ⟨v1, d, k1, k2⟩ := init_ok fuel v c.1 c.2 (by omega)
        exact ⟨v1, d, k1, k2.ready⟩)
    refine ⟨w1, delta, h1, h2.trace, ?_⟩
    intro y t ht
    obtain ⟨t1, ht1, hstep⟩ := h2.frame y t ht
    have honce := hstep.once
    refine ⟨?_, t1, ht1, ?_⟩
    · split at honce <;> split at honce <;> omega
    · intro hr
      obtain ⟨a, b⟩ := hstep.ready hr
      refine ⟨a, b, ?_⟩
      simp [hr, a] at honce
      exact honce
  · intro v y t hv ht
    simp [StartupComplete, hv, ht]

end Init

/-! ## Concrete instances -/

/-- C1, as stated, fails: on a setting as constructed, whose stored session is the
null session, two calls `Initialize(nullptr)` return and `Startup` has run zero
times, not once. -/
theorem Initialize_twice_same_session_no_startup :
    ((Initialize 2 (worldOf [freshSetting]) 0 none).bind fun w1 => Initialize 2 w1 0 none).map
      (fun w2 => (w2.trace.count (Event.Startup 0), w2.trace.count (Event.StartupComplete 0)))
      = some (0, 0) := by
  decide

/-- C1 (amended) at a setting as constructed and session 1. -/
theorem Initialize_twice_witness :
    ((worldOf [freshSetting]).get? 0 = some freshSetting
      ∧ (worldOf [freshSetting]).settings.length < 2)
    ∧ ∃ w1 delta, Initialize 2 (worldOf [freshSetting]) 0 (some 1) = some w1
      ∧ Initialize 2 w1 0 (some 1) = some w1
      ∧ w1.trace = (worldOf [freshSetting]).trace ++ delta
      ∧ delta.count (Event.Startup 0) = (if freshSetting.LocalPlayer = some 1 then 0 else 1)
      ∧ delta.count (Event.StartupComplete 0)
          = (if freshSetting.LocalPlayer = some 1 then 0 else 1) :=
  ⟨⟨rfl, by decide⟩,
    Initialize_twice (worldOf [freshSetting]) 0 freshSetting (some 1) 2 rfl (by decide)⟩

/-- C2 at a setting as constructed, which has no session. -/
theorem RefreshEditableState_null_session_witness :
    ((worldOf [freshSetting]).get? 0 = some freshSetting ∧ freshSetting.LocalPlayer = none)
    ∧ RefreshEditableState 1 (worldOf [freshSetting]) 0 true = some (worldOf [freshSetting]) :=
  ⟨⟨rfl, rfl⟩, RefreshEditableState_null_session 0 (worldOf [freshSetting]) 0 freshSetting true rfl rfl⟩

/-- C4 at a setting whose listener notifies the same setting again. -/
theorem NotifySettingChanged_no_nested_broadcast_witness :
    (8 * echoWorld.settings.length + 1 ≤ 9)
    ∧ ∃ w1 delta s1,
      NotifySettingChanged 9 echoWorld 0 (EGameSettingChangeReason.other 1) = some w1
      ∧ w1.trace = echoWorld.trace ++ delta
      ∧ delta.filter (Event.onChangedChannel 0)
          = [Event.BroadcastSettingChanged 0 (EGameSettingChangeReason.other 1),
             Event.Invoke 0
              (Listener.external 0 [Call.NotifySettingChanged 0 (EGameSettingChangeReason.other 2)])
              (some (EGameSettingChangeReason.other 1))]
      ∧ w1.get? 0 = some s1 ∧ s1.bOnSettingChangedEventGuard = false :=
  ⟨by decide,
    (NotifySettingChanged_no_nested_broadcast echoWorld 0 _ (EGameSettingChangeReason.other 1) 9
      rfl rfl (by decide)).1⟩

/-- C5 at a cache made under culture 0 and read three times under culture 1. -/
theorem FStringCultureCache_Get_spec_witness :
    (FStringCultureCache.new 0 countingGetter).Culture ≠ 1
    ∧ ((FStringCultureCache.new 0 countingGetter).GetAll (List.replicate 3 1)).1
        = List.replicate 3 ['a']
    ∧ ((FStringCultureCache.new 0 countingGetter).GetAll (List.replicate 3 1)).2.calls = 2 :=
  ⟨by decide,
    ((FStringCultureCache_Get_spec (FStringCultureCache.new 0 countingGetter)).2.1 1 2
      (by decide)).1,
    ((FStringCultureCache_Get_spec (FStringCultureCache.new 0 countingGetter)).2.1 1 2
      (by decide)).2.1⟩

/-- C6 at the markup `Hello <b>World</b>!`. -/
theorem RefreshPlainText_spec_witness :
    freshSetting.bRefreshPlainSearchableText = true
    ∧ (GetDescriptionPlainText helloWorldProcess freshSetting).1 = "Hello World!".toList :=
  ⟨rfl, (RefreshPlainText_spec helloWorldProcess).2.2 freshSetting rfl rfl⟩

/-- C7 at a setting whose rule adds one and whose condition doubles: the state is
2, the rule first, and not 1; and at the two conditions that write 0 and 1. -/
theorem ComputeEditableState_spec_witness :
    ((worldOf [ruleSetting]).get? 0 = some ruleSetting ∧ (0 : Nat) ≠ 1)
    ∧ (ComputeEditableState (worldOf [ruleSetting]) 0).1 = 2
    ∧ ∃ c1 c2 : FGameSettingEditCondition Nat,
        ∀ (w : World Nat) (self : Nat) (s : UGameSetting Nat), w.get? self = some s →
          (ComputeEditableState (AddEditCondition (AddEditCondition w self c1) self c2) self).1
            ≠ (ComputeEditableState (AddEditCondition (AddEditCondition w self c2) self c1) self).1 :=
  ⟨⟨rfl, by decide⟩,
    ((ComputeEditableState_spec (σ := Nat)).1 (worldOf [ruleSetting]) 0 ruleSetting rfl).1.trans rfl,
    (ComputeEditableState_spec (σ := Nat)).2.2.2 0 1 (by decide)⟩

/-- C8, as stated, fails: a setting initialized with session 1 and then with session
2 has the stored session 2 and is ready, but its cache is still 1, the state for
session 1, while `ComputeEditableState` gives 2. -/
theorem Initialize_ready_keeps_cache :
    ((Initialize 2 (worldOf [sessionSetting]) 0 (some 1)).bind fun w1 =>
        Initialize 2 w1 0 (some 2)).map
      (fun w2 => ((w2.get? 0).map fun t => (t.LocalPlayer, t.bReady, t.EditableStateCache),
        (ComputeEditableState w2 0).1))
      = some (some (some 2, true, 1), 2) := by
  decide

/-- C8 (amended) at a setting as constructed, with a condition that reads the session. -/
theorem Initialize_computes_state_witness :
    ((worldOf [sessionSetting]).get? 0 = some sessionSetting
      ∧ sessionSetting.LocalPlayer ≠ some 2 ∧ sessionSetting.bReady = false
      ∧ (worldOf [sessionSetting]).settings.length < 2)
    ∧ ∃ w1 delta t1, Initialize 2 (worldOf [sessionSetting]) 0 (some 2) = some w1
      ∧ w1.trace = (worldOf [sessionSetting]).trace ++ delta
      ∧ w1.get? 0 = some t1 ∧ t1.LocalPlayer = some 2 ∧ t1.bReady = true
      ∧ t1.EditableStateCache = (ComputeEditableState w1 0).1
      ∧ delta.count (Event.OnInitialized 0) = 1 :=
  ⟨⟨rfl, by decide, rfl, by decide⟩,
    Initialize_computes_state (worldOf [sessionSetting]) 0 sessionSetting (some 2) 2 rfl
      (by decide) rfl (by decide)⟩

/-- C9 at four calls of `Initialize` with the sessions 1, 2, null, 1. -/
theorem OnInitialized_at_most_once_witness :
    (worldOf [sessionSetting]).settings.length < 2
    ∧ ∃ w1 delta,
      InitializeAll 2 [(0, some 1), (0, some 2), (0, none), (0, some 1)] (worldOf [sessionSetting])
        = some w1
      ∧ w1.trace = (worldOf [sessionSetting]).trace ++ delta
      ∧ ∀ y t, (worldOf [sessionSetting]).get? y = some t →
          delta.count (Event.OnInitialized y) ≤ 1
          ∧ ∃ t1, w1.get? y = some t1
            ∧ (t.bReady = true → t1.bReady = true
                ∧ t1.EditableStateCache = t.EditableStateCache
                ∧ delta.count (Event.OnInitialized y) = 0) :=
  ⟨by decide,
    (OnInitialized_at_most_once (worldOf [sessionSetting])
      [(0, some 1), (0, some 2), (0, none), (0, some 1)] 2 (by decide)).1⟩

/-- C10 at two settings that depend on each other and on themselves. -/
theorem notification_terminates_witness :
    (8 * cycleWorld.settings.length + 1 ≤ 17)
    ∧ ∃ w1, NotifySettingChanged 17 cycleWorld 0 (EGameSettingChangeReason.other 0) = some w1
      ∧ w1.settings.length = cycleWorld.settings.length ∧ w1.depth = cycleWorld.depth
      ∧ w1.maxDepth ≤ max cycleWorld.maxDepth (cycleWorld.depth + 2 * cycleWorld.settings.length)
      ∧ GuardsAsBefore cycleWorld w1 ∧ (GuardsFree cycleWorld → GuardsFree w1) :=
  ⟨by decide,
    (notification_terminates cycleWorld 17 (by decide)).1 0 (EGameSettingChangeReason.other 0)⟩

end GameSettings
